import Mathlib

/-!
Shallow embedding of the arbitrary-precision signed integer class `sjtu::int2048`
from `src/code.cpp`, together with proofs about its arithmetic.

The C++ class stores a little-endian vector of base-10000 digit blocks
(`std::vector<int> a`) and a sign flag (`bool neg`).  We model the digit
vector as `List Nat` (least-significant block first) and the flag as `Bool`.
Every function below is translated clause by clause from the corresponding
C++ member function; comments cite the source lines.
-/

namespace Sjtu

/-- `BASE = 10000` (`static const int BASE`, code.cpp line 10). -/
abbrev BASE : Nat := 10000

/-- Numeric value of a little-endian digit-block list. -/
def valNat : List Nat → Nat
  | [] => 0
  | d :: rest => d + BASE * valNat rest

/-- All digit blocks are in `[0, BASE)`. -/
def boundedL (l : List Nat) : Prop := ∀ d ∈ l, d < BASE

/-- Canonical form of a digit list: no trailing (most-significant) zero block.
Mirrors invariant 1 of the spec: the most-significant stored block, if any,
is nonzero. -/
def canonL : List Nat → Bool
  | [] => true
  | [d] => decide (d ≠ 0)
  | _ :: rest => canonL rest

/-- `int2048::trim` (code.cpp lines 69-72), digit-list part: pop trailing
(most-significant) zero blocks.  Written as structural recursion from the
little-endian end; it removes exactly the maximal run of most-significant
zeros, as the C++ `while`-loop does. -/
def trimL : List Nat → List Nat
  | [] => []
  | d :: rest =>
    match trimL rest with
    | [] => if d = 0 then [] else [d]
    | r => d :: r

/-- Most-significant-first comparison of two equal-length digit lists:
the loop of `int2048::abs_compare` (code.cpp lines 78-80). -/
def cmpMSB : List Nat → List Nat → Int
  | x :: xs, y :: ys => if x ≠ y then (if x < y then -1 else 1) else cmpMSB xs ys
  | _, _ => 0

/-- `int2048::abs_compare` (code.cpp lines 76-82): compare lengths first,
then blocks from most significant to least significant; returns -1, 0 or 1. -/
def cmpAbsL (x y : List Nat) : Int :=
  if x.length ≠ y.length then (if x.length < y.length then -1 else 1)
  else cmpMSB x.reverse y.reverse

/-- Tail of the `add_abs` carry loop once the first operand is exhausted:
positions where only the second operand (and the carry) contribute, then the
final carry pushed if nonzero (code.cpp lines 139-146). -/
def addTail : List Nat → Nat → List Nat
  | [], c => if c = 0 then [] else [c]
  | y :: ys, c => ((y + c) % BASE) :: addTail ys ((y + c) / BASE)

/-- Carry loop of `int2048::add_abs` (code.cpp lines 136-148): per-position
addition with carry, then the final carry pushed if nonzero. -/
def addCarryL : List Nat → List Nat → Nat → List Nat
  | [], ys, c => addTail ys c
  | x :: xs, [], c => ((x + c) % BASE) :: addCarryL xs [] ((x + c) / BASE)
  | x :: xs, y :: ys, c => ((x + y + c) % BASE) :: addCarryL xs ys ((x + y + c) / BASE)

/-- `int2048::add_abs` digit-list part (result sign is always cleared by the
caller-side constructor we use below). -/
def addAbsL (x y : List Nat) : List Nat := addCarryL x y 0

/-- Borrow loop of `int2048::sub_abs` (code.cpp lines 152-158): per-position
subtraction with borrow, assuming `|x| >= |y|`; iterates over `x`'s positions. -/
def subBorrowL : List Nat → List Nat → Nat → List Nat
  | [], _, _ => []
  | x :: xs, ys, b =>
    if x < b + ys.headD 0 then
      (x + BASE - b - ys.headD 0) :: subBorrowL xs ys.tail 1
    else
      (x - b - ys.headD 0) :: subBorrowL xs ys.tail 0

/-- `int2048::sub_abs` (code.cpp lines 150-160): borrow loop followed by `trim`. -/
def subAbsL (x y : List Nat) : List Nat := trimL (subBorrowL x y 0)

/-- Carry loop of `int2048::mul_by_int` (code.cpp lines 222-228). -/
def mulByIntCarry : List Nat → Nat → Nat → List Nat
  | [], _, c => if c = 0 then [] else [c]
  | d :: rest, m, c => ((d * m + c) % BASE) :: mulByIntCarry rest m ((d * m + c) / BASE)

/-- `int2048::mul_by_int` (code.cpp lines 219-230): zero operand or zero
multiplier short-circuits to the empty (zero) digit list. -/
def mulByIntL (x : List Nat) (m : Nat) : List Nat :=
  if x.isEmpty || m = 0 then [] else mulByIntCarry x m 0

/-- The `while (x) { a.push_back(x % BASE); x /= BASE; }` loop of the
`int2048(long long)` constructor (code.cpp line 89), written with an explicit
iteration bound (`fuel`); since `x / BASE < x` for positive `x`, `x` itself
always suffices as the bound, so the fuel clause is never reached from
`natToDigits`. -/
def natToDigitsF : Nat → Nat → List Nat
  | 0, _ => []
  | fuel + 1, x => if x = 0 then [] else (x % BASE) :: natToDigitsF fuel (x / BASE)

/-- Digit-list decomposition of a natural number, least-significant first. -/
def natToDigits (x : Nat) : List Nat := natToDigitsF x x

/-- The `sjtu::int2048` value type (code.cpp lines 8-13): little-endian
base-10000 digit blocks `a` and sign flag `neg`. -/
structure int2048 where
  a : List Nat
  neg : Bool
deriving DecidableEq, Repr

/-- The default constructor `int2048()` (code.cpp line 85): empty digits,
non-negative. -/
def int2048.zero : int2048 := ⟨[], false⟩

/-- Signed value represented by an `int2048`. -/
def value (x : int2048) : Int :=
  if x.neg then -(valNat x.a : Int) else (valNat x.a : Int)

/-- Representation invariant maintained by the class: digit blocks in
`[0, BASE)`, canonical form (no most-significant zero block), and the
signed-zero rule (empty digits force `neg = false`). -/
def Valid (x : int2048) : Prop :=
  boundedL x.a ∧ canonL x.a = true ∧ (x.a = [] → x.neg = false)

instance (x : int2048) : Decidable (Valid x) := by
  unfold Valid boundedL; infer_instance

/-- `int2048(long long v)` (code.cpp lines 87-91): `neg = v < 0`, the
magnitude is `(unsigned long long)(-v)` for negative `v` — i.e. the negation
interpreted modulo `2^64` — decomposed into base-10000 blocks, then `trim()`
(which clears `neg` when the digit list is empty). -/
def fromLL (v : Int) : int2048 :=
  let mag : Nat := if v < 0 then ((-v) % ((2:Int) ^ 64)).toNat else v.toNat
  let ds := natToDigits mag
  ⟨ds, decide (v < 0) && !ds.isEmpty⟩

/-- `int2048::add` (code.cpp lines 163-176): sign dispatch over
`add_abs` / `sub_abs` with magnitude comparison. -/
def int2048.add (x b : int2048) : int2048 :=
  if x.neg = b.neg then
    let r := addAbsL x.a b.a
    ⟨r, x.neg && !r.isEmpty⟩
  else
    let cmp := cmpAbsL x.a b.a
    if cmp = 0 then ⟨[], false⟩
    else if cmp > 0 then ⟨subAbsL x.a b.a, x.neg⟩
    else ⟨subAbsL b.a x.a, b.neg⟩

/-- `int2048::minus` (code.cpp lines 180-193): like `add` with the branch
roles swapped; when the second magnitude dominates, the sign flips. -/
def int2048.minus (x b : int2048) : int2048 :=
  if x.neg ≠ b.neg then
    let r := addAbsL x.a b.a
    ⟨r, x.neg && !r.isEmpty⟩
  else
    let cmp := cmpAbsL x.a b.a
    if cmp = 0 then ⟨[], false⟩
    else if cmp > 0 then ⟨subAbsL x.a b.a, x.neg⟩
    else ⟨subAbsL b.a x.a, !b.neg⟩

/-- Unary `operator-` (code.cpp lines 273-275): flip the sign unless zero. -/
def int2048.negate (x : int2048) : int2048 :=
  if x.a.isEmpty then x else ⟨x.a, !x.neg⟩

/-- Carry propagation tail of the inner multiplication loop (`j >= m` but
`carry != 0`, code.cpp line 204): fold the remaining carry into the result
digits, leaving the rest untouched once the carry dies out. -/
def mulRowTail : List Nat → Nat → List Nat
  | [], c => if c = 0 then [] else [c]
  | r0 :: rrest, c =>
    if c = 0 then r0 :: rrest
    else ((r0 + c) % BASE) :: mulRowTail rrest ((r0 + c) / BASE)

/-- Inner accumulation loop of `int2048::mul_simple` (code.cpp lines 203-208):
add `xi * ys` plus carry into the result digits `rs` starting at the current
row position.  `rs` is the suffix of the result vector from that position on;
the C++ code indexes `r.a[i + j]` instead, which is the same computation. -/
def mulRow (xi : Nat) : Nat → List Nat → List Nat → List Nat
  | c, rs, [] => mulRowTail rs c
  | c, rs, y :: ys =>
    ((rs.headD 0 + c + xi * y) % BASE) ::
      mulRow xi ((rs.headD 0 + c + xi * y) / BASE) rs.tail ys

/-- Outer loop of `int2048::mul_simple` (code.cpp lines 202-209): one row per
digit of `x`; after a row is accumulated its least-significant position is
final, so we emit it and recurse on the remaining suffix. -/
def mulLoop : List Nat → List Nat → List Nat → List Nat
  | [], _, rs => rs
  | xi :: xs, ys, rs =>
    let rs2 := mulRow xi 0 rs ys
    rs2.headD 0 :: mulLoop xs ys rs2.tail

/-- `int2048::mul_simple` (code.cpp lines 198-212): zero short-circuit, the
result vector initialised to `n + m` zero blocks, row accumulation, `trim`. -/
def mulSimpleL (x y : List Nat) : List Nat :=
  if x.isEmpty || y.isEmpty then []
  else trimL (mulLoop x y (List.replicate (x.length + y.length) 0))

/-- `operator*=` (code.cpp lines 285-292; `mul_fft` just delegates to
`mul_simple`, lines 214-217): multiply magnitudes, sign is xor of the operand
signs and cleared on a zero result. -/
def int2048.mul (x b : int2048) : int2048 :=
  let r := mulSimpleL x.a b.a
  ⟨r, (x.neg != b.neg) && !r.isEmpty⟩

/-- Binary search for one quotient digit (code.cpp lines 250-258): the
largest `mid` in `[low, high]` with `mul_by_int(vshift, mid) <= rem`;
`(low + high) >> 1` on nonnegative C++ ints is floor division by 2, which is
Lean's `Int` division.  The `while (low <= high)` loop is written with an
explicit iteration bound (`fuel`); the interval width shrinks every
iteration, so `BASE` iterations always suffice and the fuel clause is never
reached from `divLoop` (proved in `qSearch_go` below). -/
def qSearch (vsh rem : List Nat) : Nat → Int → Int → Nat → Nat
  | 0, _, _, best => best
  | fuel + 1, low, high, best =>
    if low ≤ high then
      if cmpAbsL (mulByIntL vsh ((low + high) / 2).toNat) rem ≤ 0 then
        qSearch vsh rem fuel ((low + high) / 2 + 1) high ((low + high) / 2).toNat
      else
        qSearch vsh rem fuel low ((low + high) / 2 - 1) best
    else best

/-- Main loop of `int2048::divmod_abs` (code.cpp lines 249-267), processing
shift positions `pos, pos-1, ..., 0`: search the quotient digit, subtract
`best * vshift` from the running remainder when nonzero, then shift the
divisor down one block (`erase(begin)` followed by `trim`).  Returns the
quotient digits for positions `0..pos` (little-endian) and the final
remainder. -/
def divLoop (vsh rem : List Nat) : Nat → List Nat × List Nat
  | 0 =>
    let best := qSearch vsh rem BASE 0 (BASE - 1) 0
    let rem2 := if best ≠ 0 then subAbsL rem (mulByIntL vsh best) else rem
    ([best], rem2)
  | pos + 1 =>
    let best := qSearch vsh rem BASE 0 (BASE - 1) 0
    let rem2 := if best ≠ 0 then subAbsL rem (mulByIntL vsh best) else rem
    let vsh2 := trimL vsh.tail
    let (qs, rf) := divLoop vsh2 rem2 pos
    (qs ++ [best], rf)

/-- `int2048::divmod_abs` (code.cpp lines 233-269): magnitude-level long
division.  Zero divisor returns `(0, 0)`; `|u| < |v|` returns quotient zero
and the dividend unchanged; otherwise the divisor is shifted left by
`n - m` blocks and the loop above produces the quotient digits, which are
trimmed; the remainder sign is cleared. -/
def divmodAbs (u v : int2048) : int2048 × int2048 :=
  if v.a.isEmpty then (int2048.zero, int2048.zero)
  else if cmpAbsL u.a v.a < 0 then (int2048.zero, u)
  else
    let k := u.a.length - v.a.length
    let vsh := List.replicate k 0 ++ v.a
    let (qs, rf) := divLoop vsh u.a k
    (⟨trimL qs, false⟩, ⟨rf, false⟩)

/-- `operator/=` (code.cpp lines 295-308): divide magnitudes; if the operand
signs differ and the remainder is nonzero, add one to the magnitude quotient
and mark it negative (floor adjustment); otherwise the quotient is negative
iff signs differ and it is nonzero. -/
def int2048.div (x b : int2048) : int2048 :=
  let negRes := x.neg != b.neg
  let qr := divmodAbs ⟨x.a, false⟩ ⟨b.a, false⟩
  if negRes && !qr.2.a.isEmpty then
    ⟨addAbsL qr.1.a [1], true⟩
  else
    ⟨qr.1.a, negRes && !qr.1.a.isEmpty⟩

/-- `operator%=` (code.cpp lines 311-326): `r = x - (x / y) * y` computed by
the inlined signed subtraction of `prod = q * b` from `x`.  Note that in the
first and third branches the C++ statement `this->neg = this->neg;` reads the
flag after `*this` has already been overwritten by the `add_abs`/`sub_abs`
result (whose flag is `false`), so those branches always end non-negative. -/
def int2048.mod (x b : int2048) : int2048 :=
  let q := x.div b
  let prod := q.mul b
  if x.neg ≠ prod.neg then
    ⟨addAbsL x.a prod.a, false⟩
  else
    let cmp := cmpAbsL x.a prod.a
    if cmp = 0 then ⟨[], false⟩
    else if cmp > 0 then ⟨subAbsL x.a prod.a, false⟩
    else ⟨subAbsL prod.a x.a, !prod.neg⟩

/-- The whitespace test of `int2048::read` (code.cpp line 102): space,
newline, carriage return, tab, vertical tab, form feed. -/
def isSpaceCh (c : Char) : Bool :=
  c = ' ' || c = '\n' || c = '\r' || c = '\t' || c = Char.ofNat 11 || c = Char.ofNat 12

/-- The digit test of `int2048::read` (code.cpp lines 106 and 113):
ASCII comparison against the digit characters. -/
def isDigitCh (c : Char) : Bool := 48 ≤ c.toNat && c.toNat ≤ 57

/-- One window of the block loop of `int2048::read` (code.cpp lines 109-114):
scan the window characters in string order, accumulating only digit
characters. -/
def blockVal (cs : List Char) : Nat :=
  cs.foldl (fun v c => if isDigitCh c then v * 10 + (c.toNat - 48) else v) 0

/-- The block loop of `int2048::read` (code.cpp lines 108-116) applied to the
reversed character range `i..end` (last digit first): each step takes the
window of up to 4 characters ending at the current position `p` (in string
order `l..p`, hence the reversal inside each window) and pushes its value. -/
def chunksRev : List Char → List Nat
  | [] => []
  | [c1] => [blockVal [c1]]
  | [c1, c2] => [blockVal [c2, c1]]
  | [c1, c2, c3] => [blockVal [c3, c2, c1]]
  | c1 :: c2 :: c3 :: c4 :: rest => blockVal [c4, c3, c2, c1] :: chunksRev rest

/-- `int2048::read` (code.cpp lines 98-118): clear, skip leading whitespace,
consume one optional sign character, drop everything after the last digit
character (`end` scan, lines 105-106; no digit at all yields zero, line 107),
run the block loop from the last digit backwards, then `trim` and clear the
sign when zero. -/
def readL (s : List Char) : int2048 :=
  let t := s.dropWhile isSpaceCh
  let p : Bool × List Char :=
    match t with
    | c :: rest => if c = '+' || c = '-' then (c = '-', rest) else (false, t)
    | [] => (false, [])
  let r := p.2.reverse.dropWhile (fun c => !isDigitCh c)
  if r.isEmpty then ⟨[], false⟩
  else
    let ds := trimL (chunksRev r)
    ⟨ds, p.1 && !ds.isEmpty⟩

/-- Character of a single decimal digit value. -/
def digitChar (d : Nat) : Char := Char.ofNat (48 + d)

/-- Decimal character sequence of a nonnegative machine integer, as produced
by the C++ stream inserter for `int`; both `print` (line 124) and
`operator<<` (line 336) delegate the top block to this. -/
def natChars (n : Nat) : List Char := Nat.toDigits 10 n

/-- One non-leading block as printed by `int2048::print` (code.cpp
lines 126-131): four separate `<<` of the ints `v/1000`, `(v/100)%10`,
`(v/10)%10`, `v%10`. -/
def printBlock (v : Nat) : List Char :=
  natChars (v / 1000) ++ natChars (v / 100 % 10) ++ natChars (v / 10 % 10) ++
    natChars (v % 10)

/-- One non-leading block as printed by `operator<<` (code.cpp lines 338-341):
a 4-character buffer filled from the right with `v % 10` while `v /= 10`. -/
def osBlock (v : Nat) : List Char :=
  [digitChar (v / 1000 % 10), digitChar (v / 100 % 10), digitChar (v / 10 % 10),
    digitChar (v % 10)]

/-- Concatenate the rendered non-leading blocks, most significant first. -/
def blocksOut (f : Nat → List Char) (l : List Nat) : List Char :=
  l.foldr (fun v acc => f v ++ acc) []

/-- `int2048::print` (code.cpp lines 120-133) as a character sequence:
`0` for zero, `-` for negative, the top block unpadded, then each remaining
block through `printBlock`. -/
def printChars (x : int2048) : List Char :=
  if x.a.isEmpty then ['0']
  else
    (if x.neg then ['-'] else []) ++ natChars (x.a.getLastD 0) ++
      blocksOut printBlock x.a.dropLast.reverse

/-- `operator<<` (code.cpp lines 332-344) as a character sequence. -/
def osChars (x : int2048) : List Char :=
  if x.a.isEmpty then ['0']
  else
    (if x.neg then ['-'] else []) ++ natChars (x.a.getLastD 0) ++
      blocksOut osBlock x.a.dropLast.reverse

/-- Decimal value of a digit-character run, most significant first
(the reference reading used to state parsing claims). -/
def decValue (l : List Char) : Nat :=
  l.foldl (fun acc c => acc * 10 + (c.toNat - 48)) 0


/-! ### Lemmas: values, bounds and canonicity of the digit-level routines -/

theorem BASE_pos : 0 < BASE := by decide

theorem BASE_eq : BASE = 10000 := rfl

theorem valNat_nil : valNat [] = 0 := rfl

theorem valNat_cons (d : Nat) (l : List Nat) :
    valNat (d :: l) = d + BASE * valNat l := rfl

theorem canonL_tail {d : Nat} {l : List Nat} (h : canonL (d :: l) = true) :
    canonL l = true := by
  cases l with
  | nil => rfl
  | cons e r => simpa [canonL] using h

theorem valNat_eq_zero_iff_nil {l : List Nat} (hc : canonL l = true) :
    valNat l = 0 ↔ l = [] := by
  induction l with
  | nil => simp [valNat]
  | cons d rest ih =>
    simp only [valNat_cons, BASE_eq]
    constructor
    · intro h
      have hd : d = 0 := by omega
      have hr : valNat rest = 0 := by omega
      have hrest := (ih (canonL_tail hc)).mp hr
      subst hrest hd
      simp [canonL] at hc
    · intro h
      exact absurd h (List.cons_ne_nil d rest)

theorem canonL_cons_of_ne {d : Nat} {l : List Nat} (h : canonL l = true)
    (hne : l ≠ []) : canonL (d :: l) = true := by
  cases l with
  | nil => exact absurd rfl hne
  | cons e r => simpa [canonL] using h

theorem boundedL_nil : boundedL [] := fun u hu => absurd hu (List.not_mem_nil u)

theorem boundedL_tail {d : Nat} {l : List Nat} (h : boundedL (d :: l)) :
    boundedL l := fun e he => h e (by simp [he])

theorem boundedL_head {d : Nat} {l : List Nat} (h : boundedL (d :: l)) :
    d < BASE := h d (by simp)

theorem valNat_lt_pow {l : List Nat} (h : boundedL l) :
    valNat l < BASE ^ l.length := by
  induction l with
  | nil => simp [valNat]
  | cons d rest ih =>
    have hd : d < BASE := boundedL_head h
    have hr := ih (boundedL_tail h)
    have h2 : BASE * (valNat rest + 1) ≤ BASE * BASE ^ rest.length :=
      Nat.mul_le_mul_left _ hr
    simp only [valNat_cons, List.length_cons, pow_succ]
    simp only [BASE_eq] at h2 hd ⊢
    omega

theorem pow_le_valNat_of_canon {l : List Nat} (hc : canonL l = true)
    (hne : l ≠ []) : BASE ^ (l.length - 1) ≤ valNat l := by
  induction l with
  | nil => exact absurd rfl hne
  | cons d rest ih =>
    cases rest with
    | nil =>
      have : d ≠ 0 := by simpa [canonL] using hc
      simpa [valNat] using Nat.one_le_iff_ne_zero.mpr this
    | cons e r2 =>
      have ih2 := ih (canonL_tail hc) (by simp)
      have h2 : BASE * BASE ^ ((e :: r2).length - 1) ≤ BASE * valNat (e :: r2) :=
        Nat.mul_le_mul_left _ ih2
      have h3 : BASE ^ ((d :: e :: r2).length - 1)
          = BASE * BASE ^ ((e :: r2).length - 1) := by
        simp [pow_succ, Nat.mul_comm]
      rw [h3, valNat_cons]
      simp only [BASE_eq] at h2 ⊢
      omega

theorem valNat_trimL (l : List Nat) : valNat (trimL l) = valNat l := by
  induction l with
  | nil => rfl
  | cons d rest ih =>
    cases htr : trimL rest with
    | nil =>
      have h0 : valNat rest = 0 := by rw [← ih, htr, valNat_nil]
      by_cases hd : d = 0
      · simp [trimL, htr, hd, valNat_cons, h0, valNat]
      · simp [trimL, htr, hd, valNat_cons, h0, valNat]
    | cons e r =>
      simp only [trimL, htr, valNat_cons]
      rw [← ih, htr, valNat_cons]

theorem canonL_trimL (l : List Nat) : canonL (trimL l) = true := by
  induction l with
  | nil => rfl
  | cons d rest ih =>
    cases htr : trimL rest with
    | nil =>
      by_cases hd : d = 0 <;> simp [trimL, htr, hd, canonL]
    | cons e r =>
      rw [htr] at ih
      simp only [trimL, htr]
      cases r <;> simpa [canonL] using ih

theorem trimL_eq_self_of_canon {l : List Nat} (hc : canonL l = true) :
    trimL l = l := by
  induction l with
  | nil => rfl
  | cons d rest ih =>
    cases rest with
    | nil =>
      have hd : d ≠ 0 := by simpa [canonL] using hc
      simp [trimL, hd]
    | cons e r =>
      have h2 := ih (canonL_tail hc)
      have h1 : trimL (d :: e :: r) =
          match trimL (e :: r) with
          | [] => if d = 0 then [] else [d]
          | r2 => d :: r2 := rfl
      rw [h1, h2]

theorem boundedL_trimL {l : List Nat} (h : boundedL l) : boundedL (trimL l) := by
  induction l with
  | nil => exact h
  | cons d rest ih =>
    have hd := boundedL_head h
    have hr := ih (boundedL_tail h)
    cases htr : trimL rest with
    | nil =>
      by_cases h0 : d = 0
      · simp [trimL, htr, h0, boundedL]
      · simp [trimL, htr, h0, boundedL]
        omega
    | cons e r =>
      rw [htr] at hr
      simp only [trimL, htr]
      intro z hz
      rcases List.mem_cons.mp hz with rfl | hz2
      · exact hd
      · exact hr z hz2

/-- Value of a most-significant-first digit list (used to reason about the
MSB-first comparison loop). -/
def valMSB : List Nat → Nat
  | [] => 0
  | d :: rest => d * BASE ^ rest.length + valMSB rest

theorem valMSB_append_single (l : List Nat) (d : Nat) :
    valMSB (l ++ [d]) = valMSB l * BASE + d := by
  induction l with
  | nil => simp [valMSB]
  | cons e rest ih =>
    have h1 : (e :: rest) ++ [d] = e :: (rest ++ [d]) := rfl
    rw [h1]
    show e * BASE ^ (rest ++ [d]).length + valMSB (rest ++ [d]) =
      (e * BASE ^ rest.length + valMSB rest) * BASE + d
    rw [ih, List.length_append]
    simp only [List.length_cons, List.length_nil, pow_succ]
    ring

theorem valMSB_reverse (l : List Nat) : valMSB l.reverse = valNat l := by
  induction l with
  | nil => rfl
  | cons d rest ih =>
    simp only [List.reverse_cons, valMSB_append_single, ih, valNat_cons]
    ring

theorem valMSB_lt_pow {l : List Nat} (h : ∀ d ∈ l, d < BASE) :
    valMSB l < BASE ^ l.length := by
  induction l with
  | nil => simp [valMSB]
  | cons d rest ih =>
    have hd : d < BASE := h d (by simp)
    have hr := ih (fun e he => h e (by simp [he]))
    simp only [valMSB, List.length_cons, pow_succ]
    have h1 : (d + 1) * BASE ^ rest.length ≤ BASE * BASE ^ rest.length :=
      Nat.mul_le_mul_right _ (by omega)
    have h2 : BASE ^ rest.length * BASE = BASE * BASE ^ rest.length := Nat.mul_comm _ _
    simp only [BASE_eq] at h1 h2 ⊢
    nlinarith [hr]

theorem cmpMSB_spec : ∀ {x y : List Nat}, x.length = y.length →
    (∀ d ∈ x, d < BASE) → (∀ d ∈ y, d < BASE) →
    (cmpMSB x y = -1 ∧ valMSB x < valMSB y) ∨ (cmpMSB x y = 0 ∧ x = y) ∨
      (cmpMSB x y = 1 ∧ valMSB y < valMSB x) := by
  intro x
  induction x with
  | nil => intro y hlen _ _
           cases y with
           | nil => exact Or.inr (Or.inl ⟨rfl, rfl⟩)
           | cons e ys => simp at hlen
  | cons d xs ih =>
    intro y hlen hbx hby
    cases y with
    | nil => simp at hlen
    | cons e ys =>
      have hlen2 : xs.length = ys.length := by simpa using hlen
      have hd : d < BASE := hbx d (by simp)
      have he : e < BASE := hby e (by simp)
      have hxs : valMSB xs < BASE ^ xs.length := valMSB_lt_pow (fun z hz => hbx z (by simp [hz]))
      have hys : valMSB ys < BASE ^ ys.length := valMSB_lt_pow (fun z hz => hby z (by simp [hz]))
      by_cases hde : d = e
      · subst hde
        rcases ih hlen2 (fun z hz => hbx z (by simp [hz])) (fun z hz => hby z (by simp [hz]))
          with ⟨h1, h2⟩ | ⟨h1, h2⟩ | ⟨h1, h2⟩
        · refine Or.inl ⟨by simpa [cmpMSB] using h1, ?_⟩
          simp only [valMSB, hlen2]
          omega
        · exact Or.inr (Or.inl ⟨by simpa [cmpMSB] using h1, by rw [h2]⟩)
        · refine Or.inr (Or.inr ⟨by simpa [cmpMSB] using h1, ?_⟩)
          simp only [valMSB, hlen2]
          omega
      · by_cases hlt : d < e
        · refine Or.inl ⟨by simp [cmpMSB, hde, hlt], ?_⟩
          simp only [valMSB, hlen2]
          have step : (d + 1) * BASE ^ ys.length ≤ e * BASE ^ ys.length :=
            Nat.mul_le_mul_right _ (by omega)
          rw [hlen2] at hxs
          nlinarith
        · have hgt : e < d := by omega
          refine Or.inr (Or.inr ⟨by simp [cmpMSB, hde, hlt], ?_⟩)
          simp only [valMSB, hlen2]
          have step : (e + 1) * BASE ^ ys.length ≤ d * BASE ^ ys.length :=
            Nat.mul_le_mul_right _ (by omega)
          nlinarith

theorem cmpAbsL_spec {x y : List Nat} (hbx : boundedL x) (hby : boundedL y)
    (hcx : canonL x = true) (hcy : canonL y = true) :
    (cmpAbsL x y = -1 ∧ valNat x < valNat y) ∨ (cmpAbsL x y = 0 ∧ x = y) ∨
      (cmpAbsL x y = 1 ∧ valNat y < valNat x) := by
  by_cases hlen : x.length = y.length
  · have hbx2 : ∀ d ∈ x.reverse, d < BASE := fun d hd => hbx d (by simpa using hd)
    have hby2 : ∀ d ∈ y.reverse, d < BASE := fun d hd => hby d (by simpa using hd)
    have hlen2 : x.reverse.length = y.reverse.length := by simpa using hlen
    rcases cmpMSB_spec hlen2 hbx2 hby2 with ⟨h1, h2⟩ | ⟨h1, h2⟩ | ⟨h1, h2⟩
    · exact Or.inl ⟨by simp [cmpAbsL, hlen, h1], by
        rwa [valMSB_reverse, valMSB_reverse] at h2⟩
    · exact Or.inr (Or.inl ⟨by simp [cmpAbsL, hlen, h1], List.reverse_injective h2⟩)
    · exact Or.inr (Or.inr ⟨by simp [cmpAbsL, hlen, h1], by
        rwa [valMSB_reverse, valMSB_reverse] at h2⟩)
  · by_cases hlt : x.length < y.length
    · refine Or.inl ⟨by simp [cmpAbsL, hlen, hlt], ?_⟩
      have hyne : y ≠ [] := by
        intro h; subst h; simp at hlt
      have h1 : valNat x < BASE ^ x.length := valNat_lt_pow hbx
      have h2 : BASE ^ (y.length - 1) ≤ valNat y := pow_le_valNat_of_canon hcy hyne
      have h3 : BASE ^ x.length ≤ BASE ^ (y.length - 1) :=
        Nat.pow_le_pow_right (by decide) (by omega)
      omega
    · refine Or.inr (Or.inr ⟨by simp [cmpAbsL, hlen, hlt], ?_⟩)
      have hxne : x ≠ [] := by
        intro h; subst h
        simp only [List.length_nil] at hlt hlen
        omega
      have h1 : valNat y < BASE ^ y.length := valNat_lt_pow hby
      have h2 : BASE ^ (x.length - 1) ≤ valNat x := pow_le_valNat_of_canon hcx hxne
      have h3 : BASE ^ y.length ≤ BASE ^ (x.length - 1) :=
        Nat.pow_le_pow_right (by decide) (by omega)
      omega

theorem cmpAbsL_le_zero_iff {x y : List Nat} (hbx : boundedL x) (hby : boundedL y)
    (hcx : canonL x = true) (hcy : canonL y = true) :
    cmpAbsL x y ≤ 0 ↔ valNat x ≤ valNat y := by
  rcases cmpAbsL_spec hbx hby hcx hcy with ⟨h1, h2⟩ | ⟨h1, h2⟩ | ⟨h1, h2⟩ <;>
    rw [h1] <;> subst_eqs <;> constructor <;> intro h <;> omega

theorem cmpAbsL_lt_zero_iff {x y : List Nat} (hbx : boundedL x) (hby : boundedL y)
    (hcx : canonL x = true) (hcy : canonL y = true) :
    cmpAbsL x y < 0 ↔ valNat x < valNat y := by
  rcases cmpAbsL_spec hbx hby hcx hcy with ⟨h1, h2⟩ | ⟨h1, h2⟩ | ⟨h1, h2⟩ <;>
    rw [h1] <;> subst_eqs <;> constructor <;> intro h <;> omega

theorem cmpAbsL_eq_zero_iff {x y : List Nat} (hbx : boundedL x) (hby : boundedL y)
    (hcx : canonL x = true) (hcy : canonL y = true) :
    cmpAbsL x y = 0 ↔ x = y := by
  rcases cmpAbsL_spec hbx hby hcx hcy with ⟨h1, h2⟩ | ⟨h1, h2⟩ | ⟨h1, h2⟩ <;> rw [h1]
  · constructor
    · intro h; omega
    · intro h; subst h; omega
  · simp [h2]
  · constructor
    · intro h; omega
    · intro h; subst h; omega

theorem cmpAbsL_pos_iff {x y : List Nat} (hbx : boundedL x) (hby : boundedL y)
    (hcx : canonL x = true) (hcy : canonL y = true) :
    0 < cmpAbsL x y ↔ valNat y < valNat x := by
  rcases cmpAbsL_spec hbx hby hcx hcy with ⟨h1, h2⟩ | ⟨h1, h2⟩ | ⟨h1, h2⟩ <;>
    rw [h1] <;> subst_eqs <;> constructor <;> intro h <;> omega

/-- Canonical bounded digit lists are length-monotone in their value. -/
theorem length_le_of_valNat_le {x y : List Nat} (hcx : canonL x = true)
    (hby : boundedL y) (h : valNat x ≤ valNat y) : x.length ≤ y.length := by
  rcases eq_or_ne x [] with rfl | hne
  · simp
  · have h1 : BASE ^ (x.length - 1) ≤ valNat x := pow_le_valNat_of_canon hcx hne
    have h2 : valNat y < BASE ^ y.length := valNat_lt_pow hby
    have h3 : BASE ^ (x.length - 1) < BASE ^ y.length := by omega
    have h4 : x.length - 1 < y.length :=
      (Nat.pow_lt_pow_iff_right (by decide : 1 < BASE)).mp h3
    have hx : x.length ≠ 0 := by simpa using hne
    omega

/-! ### Lemmas about `add_abs`, `sub_abs` and `mul_by_int` -/

theorem addTail_val : ∀ (y : List Nat) (c : Nat),
    valNat (addTail y c) = valNat y + c := by
  intro y
  induction y with
  | nil =>
    intro c
    by_cases hc : c = 0 <;> simp [addTail, hc, valNat]
  | cons e ys ih =>
    intro c
    simp only [addTail, valNat_cons, ih, BASE_eq]
    omega

theorem addCarryL_val : ∀ (x y : List Nat) (c : Nat),
    valNat (addCarryL x y c) = valNat x + valNat y + c := by
  intro x
  induction x with
  | nil =>
    intro y c
    simp only [addCarryL, addTail_val, valNat_nil]
    omega
  | cons d xs ih =>
    intro y c
    cases y with
    | nil =>
      simp only [addCarryL, valNat_cons, valNat_nil, ih, BASE_eq]
      omega
    | cons e ys =>
      simp only [addCarryL, valNat_cons, ih, BASE_eq]
      omega

theorem addTail_eq_nil_iff {y : List Nat} {c : Nat} :
    addTail y c = [] ↔ y = [] ∧ c = 0 := by
  cases y with
  | nil => by_cases hc : c = 0 <;> simp [addTail, hc]
  | cons e ys => simp [addTail]

theorem addCarryL_eq_nil_iff {x y : List Nat} {c : Nat} :
    addCarryL x y c = [] ↔ x = [] ∧ y = [] ∧ c = 0 := by
  cases x with
  | nil =>
    simp only [addCarryL, addTail_eq_nil_iff]
    simp
  | cons d xs =>
    cases y with
    | nil => simp [addCarryL]
    | cons e ys => simp [addCarryL]

theorem addTail_bounded : ∀ (y : List Nat) (c : Nat), boundedL y → c ≤ 1 →
    boundedL (addTail y c) := by
  intro y
  induction y with
  | nil =>
    intro c _ hc
    by_cases h0 : c = 0
    · simp [addTail, h0, boundedL_nil]
    · have heq : addTail [] c = [c] := by simp [addTail, h0]
      rw [heq]
      intro z hz
      simp only [List.mem_singleton] at hz
      subst hz
      simp only [BASE_eq]
      omega
  | cons e ys ih =>
    intro c hy hc
    have he := boundedL_head hy
    simp only [addTail]
    intro z hz
    rcases List.mem_cons.mp hz with rfl | hz2
    · simp only [BASE_eq] at *; omega
    · exact ih _ (boundedL_tail hy) (by simp only [BASE_eq] at *; omega) z hz2

theorem addCarryL_bounded : ∀ (x y : List Nat) (c : Nat), boundedL x →
    boundedL y → c ≤ 1 → boundedL (addCarryL x y c) := by
  intro x
  induction x with
  | nil =>
    intro y c _ hy hc
    simp only [addCarryL]
    exact addTail_bounded y c hy hc
  | cons d xs ih =>
    intro y c hx hy hc
    have hd := boundedL_head hx
    cases y with
    | nil =>
      simp only [addCarryL]
      intro z hz
      rcases List.mem_cons.mp hz with rfl | hz2
      · simp only [BASE_eq] at *; omega
      · exact ih [] _ (boundedL_tail hx) boundedL_nil
          (by simp only [BASE_eq] at *; omega) z hz2
    | cons e ys =>
      have he := boundedL_head hy
      simp only [addCarryL]
      intro z hz
      rcases List.mem_cons.mp hz with rfl | hz2
      · simp only [BASE_eq] at *; omega
      · exact ih ys _ (boundedL_tail hx) (boundedL_tail hy)
          (by simp only [BASE_eq] at *; omega) z hz2

theorem addTail_canon : ∀ (y : List Nat) (c : Nat), boundedL y →
    canonL y = true → c ≤ 1 → canonL (addTail y c) = true := by
  intro y
  induction y with
  | nil =>
    intro c _ _ _
    by_cases h0 : c = 0 <;> simp [addTail, h0, canonL]
  | cons e ys ih =>
    intro c hy hcy hc
    have he := boundedL_head hy
    simp only [addTail]
    cases hrec : addTail ys ((e + c) / BASE) with
    | nil =>
      rcases addTail_eq_nil_iff.mp hrec with ⟨hys, hcar⟩
      subst hys
      have hene : e ≠ 0 := by simpa [canonL] using hcy
      have : (e + c) % BASE = e + c := by
        simp only [BASE_eq] at *; omega
      simp [canonL, this]
      omega
    | cons z zs =>
      rw [← hrec]
      refine canonL_cons_of_ne ?_ (by rw [hrec]; exact List.cons_ne_nil z zs)
      exact ih _ (boundedL_tail hy) (canonL_tail hcy)
        (by simp only [BASE_eq] at *; omega)

theorem addCarryL_canon : ∀ (x y : List Nat) (c : Nat), boundedL x →
    boundedL y → canonL x = true → canonL y = true → c ≤ 1 →
    canonL (addCarryL x y c) = true := by
  intro x
  induction x with
  | nil =>
    intro y c _ hy _ hcy hc
    simp only [addCarryL]
    exact addTail_canon y c hy hcy hc
  | cons d xs ih =>
    intro y c hx hy hcx hcy hc
    have hd := boundedL_head hx
    cases y with
    | nil =>
      simp only [addCarryL]
      cases hrec : addCarryL xs [] ((d + c) / BASE) with
      | nil =>
        rcases addCarryL_eq_nil_iff.mp hrec with ⟨hxs, -, hcar⟩
        subst hxs
        have hdne : d ≠ 0 := by simpa [canonL] using hcx
        have : (d + c) % BASE = d + c := by
          simp only [BASE_eq] at *; omega
        simp [canonL, this]
        omega
      | cons z zs =>
        rw [← hrec]
        refine canonL_cons_of_ne ?_ (by rw [hrec]; exact List.cons_ne_nil z zs)
        exact ih [] _ (boundedL_tail hx) boundedL_nil (canonL_tail hcx)
          rfl (by simp only [BASE_eq] at *; omega)
    | cons e ys =>
      have he := boundedL_head hy
      simp only [addCarryL]
      cases hrec : addCarryL xs ys ((d + e + c) / BASE) with
      | nil =>
        rcases addCarryL_eq_nil_iff.mp hrec with ⟨hxs, hys, hcar⟩
        subst hxs hys
        have hdne : d ≠ 0 := by simpa [canonL] using hcx
        have : (d + e + c) % BASE = d + e + c := by
          simp only [BASE_eq] at *; omega
        simp [canonL, this]
        omega
      | cons z zs =>
        rw [← hrec]
        refine canonL_cons_of_ne ?_ (by rw [hrec]; exact List.cons_ne_nil z zs)
        exact ih ys _ (boundedL_tail hx) (boundedL_tail hy) (canonL_tail hcx)
          (canonL_tail hcy) (by simp only [BASE_eq] at *; omega)

theorem addAbsL_val (x y : List Nat) : valNat (addAbsL x y) = valNat x + valNat y := by
  simpa using addCarryL_val x y 0

theorem addAbsL_bounded {x y : List Nat} (hx : boundedL x) (hy : boundedL y) :
    boundedL (addAbsL x y) := addCarryL_bounded x y 0 hx hy (by omega)

theorem addAbsL_canon {x y : List Nat} (hx : boundedL x) (hy : boundedL y)
    (hcx : canonL x = true) (hcy : canonL y = true) :
    canonL (addAbsL x y) = true := addCarryL_canon x y 0 hx hy hcx hcy (by omega)

theorem addAbsL_eq_nil_iff {x y : List Nat} :
    addAbsL x y = [] ↔ x = [] ∧ y = [] := by
  unfold addAbsL
  rw [addCarryL_eq_nil_iff]
  simp

theorem subBorrowL_bounded : ∀ (x y : List Nat) (b : Nat), boundedL x →
    boundedL (subBorrowL x y b) := by
  intro x
  induction x with
  | nil => intro y b _; exact boundedL_nil
  | cons d xs ih =>
    intro y b hx
    have hd := boundedL_head hx
    simp only [subBorrowL]
    by_cases hbr : d < b + y.headD 0
    · simp only [if_pos hbr]
      intro z hz
      rcases List.mem_cons.mp hz with rfl | hz2
      · simp only [BASE_eq] at *; omega
      · exact ih y.tail 1 (boundedL_tail hx) z hz2
    · simp only [if_neg hbr]
      intro z hz
      rcases List.mem_cons.mp hz with rfl | hz2
      · simp only [BASE_eq] at *; omega
      · exact ih y.tail 0 (boundedL_tail hx) z hz2

theorem subBorrowL_val : ∀ (x y : List Nat) (b : Nat), boundedL x → boundedL y →
    y.length ≤ x.length → valNat y + b ≤ valNat x → b ≤ 1 →
    valNat (subBorrowL x y b) + valNat y + b = valNat x := by
  intro x
  induction x with
  | nil =>
    intro y b _ _ hlen hval hb
    cases y with
    | nil =>
      simp only [subBorrowL, valNat_nil] at hval ⊢
      omega
    | cons e ys => simp at hlen
  | cons d xs ih =>
    intro y b hx hy hlen hval hb
    have hd : d < 10000 := by
      have := boundedL_head hx
      simpa [BASE_eq] using this
    have hsplit : valNat y = y.headD 0 + 10000 * valNat y.tail := by
      cases y with
      | nil => simp [valNat]
      | cons e ys => simp [valNat_cons, BASE_eq]
    have hy0 : y.headD 0 < 10000 := by
      cases y with
      | nil => simp
      | cons e ys =>
        have := boundedL_head hy
        simpa [BASE_eq] using this
    have hytl : boundedL y.tail := by
      cases y with
      | nil => exact boundedL_nil
      | cons e ys => exact boundedL_tail hy
    have hlen2 : y.tail.length ≤ xs.length := by
      cases y with
      | nil => simp
      | cons e ys => simpa using hlen
    rw [valNat_cons] at hval
    simp only [BASE_eq] at hval
    simp only [subBorrowL]
    by_cases hbr : d < b + y.headD 0
    · rw [if_pos hbr]
      have hrec : valNat y.tail + 1 ≤ valNat xs := by omega
      have hih := ih y.tail 1 (boundedL_tail hx) hytl hlen2 hrec (by omega)
      simp only [valNat_cons, BASE_eq]
      omega
    · rw [if_neg hbr]
      have hrec : valNat y.tail + 0 ≤ valNat xs := by omega
      have hih := ih y.tail 0 (boundedL_tail hx) hytl hlen2 hrec (by omega)
      simp only [valNat_cons, BASE_eq]
      omega

theorem subAbsL_val {x y : List Nat} (hx : boundedL x) (hy : boundedL y)
    (hlen : y.length ≤ x.length) (hval : valNat y ≤ valNat x) :
    valNat (subAbsL x y) = valNat x - valNat y := by
  have := subBorrowL_val x y 0 hx hy hlen (by omega) (by omega)
  unfold subAbsL
  rw [valNat_trimL]
  omega

theorem subAbsL_bounded {x y : List Nat} (hx : boundedL x) :
    boundedL (subAbsL x y) := boundedL_trimL (subBorrowL_bounded x y 0 hx)

theorem subAbsL_canon (x y : List Nat) : canonL (subAbsL x y) = true :=
  canonL_trimL _

theorem mulByIntCarry_val : ∀ (x : List Nat) (m c : Nat),
    valNat (mulByIntCarry x m c) = valNat x * m + c := by
  intro x
  induction x with
  | nil =>
    intro m c
    by_cases hc : c = 0 <;> simp [mulByIntCarry, hc, valNat]
  | cons d rest ih =>
    intro m c
    simp only [mulByIntCarry, valNat_cons, ih]
    have hdm := Nat.div_add_mod (d * m + c) BASE
    calc (d * m + c) % BASE + BASE * (valNat rest * m + (d * m + c) / BASE)
        = ((d * m + c) % BASE + BASE * ((d * m + c) / BASE)) +
            BASE * (valNat rest * m) := by ring
      _ = d * m + c + BASE * (valNat rest * m) := by
          simp only [BASE_eq] at *; omega
      _ = (d + BASE * valNat rest) * m + c := by ring

theorem mulByIntCarry_bounded : ∀ (x : List Nat) (m c : Nat), boundedL x →
    m < BASE → c + 1 ≤ m → boundedL (mulByIntCarry x m c) := by
  intro x
  induction x with
  | nil =>
    intro m c _ hm hc
    by_cases h0 : c = 0
    · simp [mulByIntCarry, h0, boundedL]
    · have heq : mulByIntCarry [] m c = [c] := by simp [mulByIntCarry, h0]
      rw [heq]
      intro z hz
      simp only [List.mem_singleton] at hz
      subst hz
      simp only [BASE_eq] at *
      omega
  | cons d rest ih =>
    intro m c hx hm hc
    have hd := boundedL_head hx
    simp only [mulByIntCarry]
    intro z hz
    rcases List.mem_cons.mp hz with rfl | hz2
    · simp only [BASE_eq] at *; omega
    · refine ih m _ (boundedL_tail hx) hm ?_ z hz2
      have hmul : d * m ≤ 9999 * m := Nat.mul_le_mul_right m (by
        simp only [BASE_eq] at hd; omega)
      simp only [BASE_eq] at *
      omega

theorem mulByIntCarry_eq_nil_iff {x : List Nat} {m c : Nat} :
    mulByIntCarry x m c = [] ↔ x = [] ∧ c = 0 := by
  cases x with
  | nil => by_cases hc : c = 0 <;> simp [mulByIntCarry, hc]
  | cons d rest => simp [mulByIntCarry]

theorem mulByIntCarry_canon : ∀ (x : List Nat) (m c : Nat), canonL x = true →
    1 ≤ m → canonL (mulByIntCarry x m c) = true := by
  intro x
  induction x with
  | nil =>
    intro m c _ _
    by_cases h0 : c = 0 <;> simp [mulByIntCarry, h0, canonL]
  | cons d rest ih =>
    intro m c hcx hm
    simp only [mulByIntCarry]
    cases hrec : mulByIntCarry rest m ((d * m + c) / BASE) with
    | nil =>
      rcases mulByIntCarry_eq_nil_iff.mp hrec with ⟨hrest, hcar⟩
      subst hrest
      have hdne : d ≠ 0 := by simpa [canonL] using hcx
      have hsmall : d * m + c < BASE := by
        by_contra hge
        push_neg at hge
        have : (d * m + c) / BASE ≠ 0 := by
          have := Nat.one_le_div_iff BASE_pos |>.mpr hge
          omega
        exact this hcar
      have hmod : (d * m + c) % BASE = d * m + c := Nat.mod_eq_of_lt hsmall
      have hpos : 1 ≤ d * m := Nat.one_le_iff_ne_zero.mpr (by
        intro h
        rcases Nat.mul_eq_zero.mp h with h | h
        · exact hdne h
        · omega)
      simp [canonL, hmod]
      omega
    | cons z zs =>
      rw [← hrec]
      refine canonL_cons_of_ne ?_ (by rw [hrec]; exact List.cons_ne_nil z zs)
      exact ih m _ (canonL_tail hcx) hm

theorem mulByIntL_val (x : List Nat) (m : Nat) :
    valNat (mulByIntL x m) = valNat x * m := by
  unfold mulByIntL
  by_cases hx : x.isEmpty
  · rw [List.isEmpty_iff.mp hx]
    simp [valNat]
  · by_cases hm : m = 0
    · subst hm
      simp [hx, valNat]
    · rw [if_neg (by simp [hx, hm])]
      rw [mulByIntCarry_val]
      omega

theorem mulByIntL_bounded {x : List Nat} {m : Nat} (hx : boundedL x)
    (hm : m < BASE) : boundedL (mulByIntL x m) := by
  unfold mulByIntL
  by_cases hx0 : x.isEmpty
  · simp [hx0, boundedL_nil]
  · by_cases hm0 : m = 0
    · simp [hm0, boundedL_nil]
    · rw [if_neg (by simp [hx0, hm0])]
      exact mulByIntCarry_bounded x m 0 hx hm (by omega)

theorem mulByIntL_canon {x : List Nat} {m : Nat} (hcx : canonL x = true) :
    canonL (mulByIntL x m) = true := by
  unfold mulByIntL
  by_cases hx0 : x.isEmpty
  · simp [hx0, canonL]
  · by_cases hm0 : m = 0
    · simp [hm0, canonL]
    · rw [if_neg (by simp [hx0, hm0])]
      exact mulByIntCarry_canon x m 0 hcx (by omega)

/-! ### Lemmas about `natToDigits` (the native-integer constructor loop) -/

theorem natToDigitsF_val : ∀ (fuel x : Nat), x ≤ fuel →
    valNat (natToDigitsF fuel x) = x := by
  intro fuel
  induction fuel with
  | zero =>
    intro x hx
    simp only [natToDigitsF, valNat_nil]
    omega
  | succ n ih =>
    intro x hx
    by_cases h0 : x = 0
    · simp [natToDigitsF, h0, valNat]
    · have hdivlt : x / BASE < x :=
        Nat.div_lt_self (Nat.pos_of_ne_zero h0) (by decide)
      simp only [natToDigitsF, if_neg h0, valNat_cons]
      rw [ih (x / BASE) (by omega)]
      simp only [BASE_eq]
      omega

theorem natToDigitsF_eq_nil_iff {fuel x : Nat} (hx : x ≤ fuel) :
    natToDigitsF fuel x = [] ↔ x = 0 := by
  cases fuel with
  | zero =>
    have h0 : x = 0 := by omega
    subst h0
    simp [natToDigitsF]
  | succ n =>
    by_cases h0 : x = 0
    · simp [natToDigitsF, h0]
    · simp [natToDigitsF, h0]

theorem natToDigitsF_bounded : ∀ (fuel x : Nat), boundedL (natToDigitsF fuel x) := by
  intro fuel
  induction fuel with
  | zero => intro x; exact boundedL_nil
  | succ n ih =>
    intro x
    by_cases h0 : x = 0
    · simp [natToDigitsF, h0, boundedL_nil]
    · simp only [natToDigitsF, if_neg h0]
      intro z hz
      rcases List.mem_cons.mp hz with rfl | hz2
      · simp only [BASE_eq]
        omega
      · exact ih (x / BASE) z hz2

theorem natToDigitsF_canon : ∀ (fuel x : Nat), x ≤ fuel →
    canonL (natToDigitsF fuel x) = true := by
  intro fuel
  induction fuel with
  | zero => intro x _; rfl
  | succ n ih =>
    intro x hx
    by_cases h0 : x = 0
    · simp [natToDigitsF, h0, canonL]
    · have hdivlt : x / BASE < x :=
        Nat.div_lt_self (Nat.pos_of_ne_zero h0) (by decide)
      simp only [natToDigitsF, if_neg h0]
      cases hrec : natToDigitsF n (x / BASE) with
      | nil =>
        have hdiv : x / BASE = 0 := (natToDigitsF_eq_nil_iff (by omega)).mp hrec
        have hlt : x < BASE := (Nat.div_eq_zero_iff (by decide)).mp hdiv
        have hmod : x % BASE = x := Nat.mod_eq_of_lt hlt
        simp [canonL, hmod, h0]
      | cons z zs =>
        rw [← hrec]
        refine canonL_cons_of_ne ?_ (by rw [hrec]; exact List.cons_ne_nil z zs)
        exact ih (x / BASE) (by omega)

theorem natToDigits_val (x : Nat) : valNat (natToDigits x) = x :=
  natToDigitsF_val x x (le_refl x)

theorem natToDigits_eq_nil_iff {x : Nat} : natToDigits x = [] ↔ x = 0 :=
  natToDigitsF_eq_nil_iff (le_refl x)

theorem natToDigits_bounded (x : Nat) : boundedL (natToDigits x) :=
  natToDigitsF_bounded x x

theorem natToDigits_canon (x : Nat) : canonL (natToDigits x) = true :=
  natToDigitsF_canon x x (le_refl x)

/-! ### Lemmas about the schoolbook multiplication loops -/

theorem valNat_headD_tail (l : List Nat) :
    valNat l = l.headD 0 + BASE * valNat l.tail := by
  cases l <;> simp [valNat, valNat_cons]

theorem headD_lt_of_bounded {l : List Nat} (h : boundedL l) : l.headD 0 < BASE := by
  cases l with
  | nil => decide
  | cons d rest => simpa using boundedL_head h

theorem boundedL_tail2 {l : List Nat} (h : boundedL l) : boundedL l.tail := by
  cases l with
  | nil => exact h
  | cons d rest => exact boundedL_tail h

theorem mulRowTail_val : ∀ (rs : List Nat) (c : Nat),
    valNat (mulRowTail rs c) = valNat rs + c := by
  intro rs
  induction rs with
  | nil =>
    intro c
    by_cases h0 : c = 0 <;> simp [mulRowTail, h0, valNat]
  | cons r0 rrest ih =>
    intro c
    by_cases h0 : c = 0
    · simp [mulRowTail, h0]
    · simp only [mulRowTail, if_neg h0, valNat_cons, ih, BASE_eq]
      omega

theorem mulRowTail_bounded : ∀ (rs : List Nat) (c : Nat), boundedL rs →
    c < BASE → boundedL (mulRowTail rs c) := by
  intro rs
  induction rs with
  | nil =>
    intro c _ hc
    by_cases h0 : c = 0
    · simp [mulRowTail, h0, boundedL_nil]
    · have heq : mulRowTail [] c = [c] := by simp [mulRowTail, h0]
      rw [heq]
      intro z hz
      simp only [List.mem_singleton] at hz
      subst hz
      exact hc
  | cons r0 rrest ih =>
    intro c hrs hc
    have hr0 := boundedL_head hrs
    by_cases h0 : c = 0
    · simpa [mulRowTail, h0] using hrs
    · simp only [mulRowTail, if_neg h0]
      intro z hz
      rcases List.mem_cons.mp hz with rfl | hz2
      · simp only [BASE_eq] at *; omega
      · exact ih _ (boundedL_tail hrs) (by simp only [BASE_eq] at *; omega) z hz2

theorem mulRow_val : ∀ (ys rs : List Nat) (xi c : Nat),
    valNat (mulRow xi c rs ys) = valNat rs + c + xi * valNat ys := by
  intro ys
  induction ys with
  | nil =>
    intro rs xi c
    simp only [mulRow, mulRowTail_val, valNat_nil]
    omega
  | cons y ytl ih =>
    intro rs xi c
    rw [show mulRow xi c rs (y :: ytl) =
        ((rs.headD 0 + c + xi * y) % BASE) ::
          mulRow xi ((rs.headD 0 + c + xi * y) / BASE) rs.tail ytl from rfl]
    rw [valNat_cons, ih, valNat_cons]
    rw [valNat_headD_tail rs]
    have hdist : xi * (y + BASE * valNat ytl) = xi * y + BASE * (xi * valNat ytl) := by
      ring
    rw [hdist]
    simp only [BASE_eq]
    omega

theorem mulRow_bounded : ∀ (ys rs : List Nat) (xi c : Nat), boundedL rs →
    boundedL ys → xi < BASE → c < BASE → boundedL (mulRow xi c rs ys) := by
  intro ys
  induction ys with
  | nil =>
    intro rs xi c hrs _ _ hc
    simp only [mulRow]
    exact mulRowTail_bounded rs c hrs hc
  | cons y ytl ih =>
    intro rs xi c hrs hys hxi hc
    have hy := boundedL_head hys
    have hh := headD_lt_of_bounded hrs
    rw [show mulRow xi c rs (y :: ytl) =
        ((rs.headD 0 + c + xi * y) % BASE) ::
          mulRow xi ((rs.headD 0 + c + xi * y) / BASE) rs.tail ytl from rfl]
    intro z hz
    rcases List.mem_cons.mp hz with rfl | hz2
    · simp only [BASE_eq] at *; omega
    · refine ih rs.tail xi _ (boundedL_tail2 hrs) (boundedL_tail hys) hxi ?_ z hz2
      have hmul : xi * y ≤ 9999 * 9999 := by
        apply Nat.mul_le_mul <;> simp only [BASE_eq] at * <;> omega
      simp only [BASE_eq] at *
      omega

theorem mulLoop_val : ∀ (xs ys rs : List Nat),
    valNat (mulLoop xs ys rs) = valNat rs + valNat xs * valNat ys := by
  intro xs
  induction xs with
  | nil => intro ys rs; simp [mulLoop, valNat]
  | cons xi xtl ih =>
    intro ys rs
    simp only [mulLoop]
    rw [valNat_cons, ih, valNat_cons]
    have hsplit := valNat_headD_tail (mulRow xi 0 rs ys)
    have hrow := mulRow_val ys rs xi 0
    have hdist : (xi + BASE * valNat xtl) * valNat ys =
        xi * valNat ys + BASE * (valNat xtl * valNat ys) := by ring
    rw [hdist]
    simp only [BASE_eq] at *
    omega

theorem mulLoop_bounded : ∀ (xs ys rs : List Nat), boundedL xs → boundedL ys →
    boundedL rs → boundedL (mulLoop xs ys rs) := by
  intro xs
  induction xs with
  | nil => intro ys rs _ _ hrs; exact hrs
  | cons xi xtl ih =>
    intro ys rs hxs hys hrs
    simp only [mulLoop]
    have hrow : boundedL (mulRow xi 0 rs ys) :=
      mulRow_bounded ys rs xi 0 hrs hys (boundedL_head hxs) BASE_pos
    intro z hz
    rcases List.mem_cons.mp hz with rfl | hz2
    · exact headD_lt_of_bounded hrow
    · exact ih ys _ (boundedL_tail hxs) hys (boundedL_tail2 hrow) z hz2

theorem valNat_replicate_zero (k : Nat) : valNat (List.replicate k 0) = 0 := by
  induction k with
  | zero => rfl
  | succ n ih => simp [List.replicate, valNat_cons, ih]

theorem boundedL_replicate_zero (k : Nat) : boundedL (List.replicate k 0) := by
  intro z hz
  have := List.eq_of_mem_replicate hz
  subst this
  exact BASE_pos

theorem mulSimpleL_val (x y : List Nat) :
    valNat (mulSimpleL x y) = valNat x * valNat y := by
  unfold mulSimpleL
  by_cases hx : x.isEmpty
  · rw [List.isEmpty_iff.mp hx]
    simp [valNat]
  · by_cases hy : y.isEmpty
    · rw [List.isEmpty_iff.mp hy]
      simp [valNat]
    · rw [if_neg (by simp [hx, hy])]
      rw [valNat_trimL, mulLoop_val, valNat_replicate_zero]
      omega

theorem mulSimpleL_bounded {x y : List Nat} (hx : boundedL x) (hy : boundedL y) :
    boundedL (mulSimpleL x y) := by
  unfold mulSimpleL
  by_cases hg : x.isEmpty || y.isEmpty
  · simp [hg, boundedL_nil]
  · rw [if_neg (by simpa using hg)]
    exact boundedL_trimL (mulLoop_bounded x y _ hx hy (boundedL_replicate_zero _))

theorem mulSimpleL_canon (x y : List Nat) : canonL (mulSimpleL x y) = true := by
  unfold mulSimpleL
  by_cases hg : x.isEmpty || y.isEmpty
  · simp [hg, canonL]
  · rw [if_neg (by simpa using hg)]
    exact canonL_trimL _

/-! ### Lemmas about shifted divisors (`replicate` prefixes) -/

theorem valNat_replicate_append (k : Nat) (v : List Nat) :
    valNat (List.replicate k 0 ++ v) = BASE ^ k * valNat v := by
  induction k with
  | zero => simp
  | succ n ih =>
    simp only [List.replicate, List.cons_append, valNat_cons, ih, pow_succ]
    ring

theorem boundedL_replicate_append {k : Nat} {v : List Nat} (hv : boundedL v) :
    boundedL (List.replicate k 0 ++ v) := by
  intro z hz
  rcases List.mem_append.mp hz with h | h
  · have := List.eq_of_mem_replicate h
    subst this
    exact BASE_pos
  · exact hv z h

theorem canonL_replicate_append {k : Nat} {v : List Nat} (hv : canonL v = true)
    (hne : v ≠ []) : canonL (List.replicate k 0 ++ v) = true := by
  induction k with
  | zero => simpa
  | succ n ih =>
    have hne2 : List.replicate n 0 ++ v ≠ [] := by
      simp [hne]
    simpa [List.replicate] using canonL_cons_of_ne ih hne2

/-! ### Correctness of the quotient-digit binary search -/

theorem cmp_mul_le_iff {vsh rem : List Nat} (hbv : boundedL vsh)
    (hcv : canonL vsh = true) (hbr : boundedL rem) (hcr : canonL rem = true)
    {d : Nat} (hd : d < BASE) :
    cmpAbsL (mulByIntL vsh d) rem ≤ 0 ↔ d * valNat vsh ≤ valNat rem := by
  have hb2 : boundedL (mulByIntL vsh d) := mulByIntL_bounded hbv hd
  have hc2 : canonL (mulByIntL vsh d) = true := mulByIntL_canon hcv
  rw [cmpAbsL_le_zero_iff hb2 hbr hc2 hcr, mulByIntL_val, Nat.mul_comm]

theorem qSearch_go {vsh rem : List Nat} (hbv : boundedL vsh)
    (hcv : canonL vsh = true) (hbr : boundedL rem) (hcr : canonL rem = true) :
    ∀ (n : Nat) (low high : Int) (best : Nat), (high + 1 - low).toNat ≤ n →
    0 ≤ low → high ≤ (BASE : Int) - 1 → best < BASE → (best : Int) ≤ low →
    low ≤ (best : Int) + 1 → best * valNat vsh ≤ valNat rem →
    (∀ d : Nat, d < BASE → d * valNat vsh ≤ valNat rem →
      ((d : Int) ≤ high ∨ d ≤ best)) →
    qSearch vsh rem n low high best < BASE ∧
      (qSearch vsh rem n low high best) * valNat vsh ≤ valNat rem ∧
      (∀ d : Nat, d < BASE → d * valNat vsh ≤ valNat rem →
        d ≤ qSearch vsh rem n low high best) := by
  intro n
  induction n with
  | zero =>
    intro low high best hfuel hlow hhigh hbestB hbl hlb hP hinv
    simp only [qSearch]
    refine ⟨hbestB, hP, ?_⟩
    intro d hdB hdP
    rcases hinv d hdB hdP with h | h
    · omega
    · exact h
  | succ n ih =>
    intro low high best hfuel hlow hhigh hbestB hbl hlb hP hinv
    by_cases hlh : low ≤ high
    · have hmid1 : low ≤ (low + high) / 2 := by omega
      have hmid2 : (low + high) / 2 ≤ high := by omega
      have hmid0 : 0 ≤ (low + high) / 2 := by omega
      have hmidB : ((low + high) / 2).toNat < BASE := by omega
      by_cases hcmp : cmpAbsL (mulByIntL vsh ((low + high) / 2).toNat) rem ≤ 0
      · rw [show qSearch vsh rem (n + 1) low high best =
            (if low ≤ high then
              if cmpAbsL (mulByIntL vsh ((low + high) / 2).toNat) rem ≤ 0 then
                qSearch vsh rem n ((low + high) / 2 + 1) high
                  ((low + high) / 2).toNat
              else qSearch vsh rem n low ((low + high) / 2 - 1) best
            else best) from rfl]
        rw [if_pos hlh, if_pos hcmp]
        have hPmid : ((low + high) / 2).toNat * valNat vsh ≤ valNat rem :=
          (cmp_mul_le_iff hbv hcv hbr hcr hmidB).mp hcmp
        refine ih ((low + high) / 2 + 1) high ((low + high) / 2).toNat
          (by omega) (by omega) hhigh hmidB (by omega) (by omega) hPmid ?_
        intro d hdB hdP
        rcases hinv d hdB hdP with h | h
        · exact Or.inl h
        · right
          omega
      · rw [show qSearch vsh rem (n + 1) low high best =
            (if low ≤ high then
              if cmpAbsL (mulByIntL vsh ((low + high) / 2).toNat) rem ≤ 0 then
                qSearch vsh rem n ((low + high) / 2 + 1) high
                  ((low + high) / 2).toNat
              else qSearch vsh rem n low ((low + high) / 2 - 1) best
            else best) from rfl]
        rw [if_pos hlh, if_neg hcmp]
        refine ih low ((low + high) / 2 - 1) best (by omega) hlow (by omega)
          hbestB hbl hlb hP ?_
        intro d hdB hdP
        rcases hinv d hdB hdP with h | h
        · left
          by_contra hgt
          push_neg at hgt
          have hle : ((low + high) / 2).toNat ≤ d := by omega
          have : ((low + high) / 2).toNat * valNat vsh ≤ valNat rem :=
            le_trans (Nat.mul_le_mul_right _ hle) hdP
          exact hcmp ((cmp_mul_le_iff hbv hcv hbr hcr hmidB).mpr this)
        · exact Or.inr h
    · rw [show qSearch vsh rem (n + 1) low high best =
          (if low ≤ high then
            if cmpAbsL (mulByIntL vsh ((low + high) / 2).toNat) rem ≤ 0 then
              qSearch vsh rem n ((low + high) / 2 + 1) high
                ((low + high) / 2).toNat
            else qSearch vsh rem n low ((low + high) / 2 - 1) best
          else best) from rfl]
      rw [if_neg hlh]
      refine ⟨hbestB, hP, ?_⟩
      intro d hdB hdP
      rcases hinv d hdB hdP with h | h
      · omega
      · exact h

/-- The binary search of `divmod_abs` returns the largest digit `d` in
`[0, BASE-1]` with `d * |vshift| <= |rem|`. -/
theorem qSearch_spec {vsh rem : List Nat} (hbv : boundedL vsh)
    (hcv : canonL vsh = true) (hbr : boundedL rem) (hcr : canonL rem = true) :
    qSearch vsh rem BASE 0 (BASE - 1) 0 < BASE ∧
      (qSearch vsh rem BASE 0 (BASE - 1) 0) * valNat vsh ≤ valNat rem ∧
      (∀ d : Nat, d < BASE → d * valNat vsh ≤ valNat rem →
        d ≤ qSearch vsh rem BASE 0 (BASE - 1) 0) := by
  refine qSearch_go hbv hcv hbr hcr BASE 0 ((BASE : Int) - 1) 0 (by omega)
    (by omega) (by omega) (by decide) (by omega) (by omega) (by omega) ?_
  intro d hdB hdP
  left
  omega

/-! ### Correctness of the long-division loop -/

theorem valNat_append_single (l : List Nat) (d : Nat) :
    valNat (l ++ [d]) = valNat l + d * BASE ^ l.length := by
  induction l with
  | nil => simp [valNat, valNat_cons]
  | cons e rest ih =>
    simp only [List.cons_append, valNat_cons, ih, List.length_cons, pow_succ]
    ring

theorem boundedL_append_single {l : List Nat} {d : Nat} (hl : boundedL l)
    (hd : d < BASE) : boundedL (l ++ [d]) := by
  intro z hz
  rcases List.mem_append.mp hz with h | h
  · exact hl z h
  · simp only [List.mem_singleton] at h
    subst h
    exact hd

/-- One divisor-shift step of the loop, as a list identity. -/
theorem tail_replicate_append (pos : Nat) (va : List Nat) :
    (List.replicate (pos + 1) 0 ++ va).tail = List.replicate pos 0 ++ va := by
  simp [List.replicate]

theorem divLoop_spec : ∀ (pos : Nat) (va rem : List Nat), boundedL va →
    canonL va = true → va ≠ [] → boundedL rem → canonL rem = true →
    valNat rem < valNat va * BASE ^ (pos + 1) →
    valNat (divLoop (List.replicate pos 0 ++ va) rem pos).1 * valNat va +
        valNat (divLoop (List.replicate pos 0 ++ va) rem pos).2 = valNat rem ∧
      valNat (divLoop (List.replicate pos 0 ++ va) rem pos).2 < valNat va ∧
      boundedL (divLoop (List.replicate pos 0 ++ va) rem pos).2 ∧
      canonL (divLoop (List.replicate pos 0 ++ va) rem pos).2 = true ∧
      boundedL (divLoop (List.replicate pos 0 ++ va) rem pos).1 ∧
      (divLoop (List.replicate pos 0 ++ va) rem pos).1.length = pos + 1 := by
  intro pos
  induction pos with
  | zero =>
    intro va rem hbv hcv hvne hbr hcr hlt
    have hV1 : 1 ≤ valNat va := by
      have := pow_le_valNat_of_canon hcv hvne
      have h1 : (1:Nat) ≤ BASE ^ (va.length - 1) := Nat.one_le_pow _ _ BASE_pos
      omega
    simp only [List.replicate, List.nil_append] at *
    obtain ⟨hsB, hsP, hsMax⟩ := qSearch_spec hbv hcv hbr hcr
    set best := qSearch va rem BASE 0 (BASE - 1) 0 with hbest
    have hmul : (best + 1) * valNat va = best * valNat va + valNat va :=
      Nat.succ_mul _ _
    have hlt2 : valNat rem < (best + 1) * valNat va := by
      by_cases hb : best + 1 < BASE
      · by_contra hge
        push_neg at hge
        have := hsMax (best + 1) hb hge
        omega
      · have hbeq : best + 1 = BASE := by omega
        rw [hbeq]
        calc valNat rem < valNat va * BASE ^ (0 + 1) := hlt
          _ = BASE * valNat va := by rw [pow_one, Nat.mul_comm]
    have hout : divLoop va rem 0 =
        ([best], if best ≠ 0 then subAbsL rem (mulByIntL va best) else rem) := rfl
    rw [hout]
    by_cases h0 : best = 0
    · simp only [h0, ne_eq, not_true_eq_false, if_false]
      have hR : valNat rem < valNat va := by
        rw [h0] at hlt2
        simpa using hlt2
      refine ⟨?_, hR, hbr, hcr, ?_, rfl⟩
      · simp [valNat_cons, valNat_nil, h0]
      · intro z hz
        simp only [h0, List.mem_singleton] at hz
        subst hz
        exact BASE_pos
    · simp only [ne_eq, h0, not_false_eq_true, if_true]
      have hTval : valNat (mulByIntL va best) = best * valNat va := by
        rw [mulByIntL_val, Nat.mul_comm]
      have hTb : boundedL (mulByIntL va best) := mulByIntL_bounded hbv hsB
      have hTc : canonL (mulByIntL va best) = true := mulByIntL_canon hcv
      have hTlen : (mulByIntL va best).length ≤ rem.length :=
        length_le_of_valNat_le hTc hbr (by omega)
      have hsub := subAbsL_val hbr hTb hTlen (by omega)
      rw [hTval] at hsub
      have hsub2 : valNat (subAbsL rem (mulByIntL va best)) + best * valNat va =
          valNat rem := by
        rw [hsub]
        exact Nat.sub_add_cancel hsP
      refine ⟨?_, ?_, subAbsL_bounded hbr, subAbsL_canon _ _, ?_, rfl⟩
      · rw [valNat_cons, valNat_nil]
        simp only [Nat.mul_zero, Nat.add_zero]
        omega
      · omega
      · intro z hz
        simp only [List.mem_singleton] at hz
        subst hz
        exact hsB
  | succ pos ih =>
    intro va rem hbv hcv hvne hbr hcr hlt
    have hV1 : 1 ≤ valNat va := by
      have := pow_le_valNat_of_canon hcv hvne
      have h1 : (1:Nat) ≤ BASE ^ (va.length - 1) := Nat.one_le_pow _ _ BASE_pos
      omega
    set vsh := List.replicate (pos + 1) 0 ++ va with hvshdef
    have hbvsh : boundedL vsh := boundedL_replicate_append hbv
    have hcvsh : canonL vsh = true := canonL_replicate_append hcv hvne
    have hVsh : valNat vsh = BASE ^ (pos + 1) * valNat va := valNat_replicate_append _ _
    obtain ⟨hsB, hsP, hsMax⟩ := qSearch_spec hbvsh hcvsh hbr hcr
    set best := qSearch vsh rem BASE 0 (BASE - 1) 0 with hbest
    have hltB : valNat rem < BASE * valNat vsh := by
      rw [hVsh]
      calc valNat rem < valNat va * BASE ^ (pos + 1 + 1) := hlt
        _ = BASE * (BASE ^ (pos + 1) * valNat va) := by ring
    have hmul : (best + 1) * valNat vsh = best * valNat vsh + valNat vsh :=
      Nat.succ_mul _ _
    have hlt2 : valNat rem < (best + 1) * valNat vsh := by
      by_cases hb : best + 1 < BASE
      · by_contra hge
        push_neg at hge
        have := hsMax (best + 1) hb hge
        omega
      · have hbeq : best + 1 = BASE := by omega
        rw [hbeq]
        exact hltB
    -- the new remainder after subtracting best * vshift
    set rem2 := if best ≠ 0 then subAbsL rem (mulByIntL vsh best) else rem with hrem2
    have hrem2add : valNat rem2 + best * valNat vsh = valNat rem := by
      rw [hrem2]
      by_cases h0 : best = 0
      · simp [h0]
      · simp only [ne_eq, h0, not_false_eq_true, if_true]
        have hTval : valNat (mulByIntL vsh best) = best * valNat vsh := by
          rw [mulByIntL_val, Nat.mul_comm]
        have hTb : boundedL (mulByIntL vsh best) := mulByIntL_bounded hbvsh hsB
        have hTc : canonL (mulByIntL vsh best) = true := mulByIntL_canon hcvsh
        have hTlen : (mulByIntL vsh best).length ≤ rem.length :=
          length_le_of_valNat_le hTc hbr (by omega)
        have hsub := subAbsL_val hbr hTb hTlen (by omega)
        rw [hTval] at hsub
        rw [hsub]
        exact Nat.sub_add_cancel hsP
    have hrem2b : boundedL rem2 := by
      rw [hrem2]
      by_cases h0 : best = 0
      · simpa [h0] using hbr
      · simp only [ne_eq, h0, not_false_eq_true, if_true]
        exact subAbsL_bounded hbr
    have hrem2c : canonL rem2 = true := by
      rw [hrem2]
      by_cases h0 : best = 0
      · simpa [h0] using hcr
      · simp only [ne_eq, h0, not_false_eq_true, if_true]
        exact subAbsL_canon _ _
    have hrem2lt : valNat rem2 < valNat vsh := by omega
    -- the shifted-down divisor
    have hvshtail : trimL vsh.tail = List.replicate pos 0 ++ va := by
      rw [hvshdef, tail_replicate_append]
      exact trimL_eq_self_of_canon (canonL_replicate_append hcv hvne)
    have hstep : divLoop vsh rem (pos + 1) =
        ((divLoop (trimL vsh.tail) rem2 pos).1 ++ [best],
          (divLoop (trimL vsh.tail) rem2 pos).2) := rfl
    have hih := ih va rem2 hbv hcv hvne hrem2b hrem2c (by
      have h2 := hrem2lt
      rw [hVsh] at h2
      calc valNat rem2 < BASE ^ (pos + 1) * valNat va := h2
        _ = valNat va * BASE ^ (pos + 1) := Nat.mul_comm _ _)
    rw [hvshtail] at hstep
    rw [hstep]
    obtain ⟨e1, e2, e3, e4, e5, e6⟩ := hih
    refine ⟨?_, e2, e3, e4, ?_, ?_⟩
    · simp only [valNat_append_single, e6]
      have hq : (valNat (divLoop (List.replicate pos 0 ++ va) rem2 pos).1 +
          best * BASE ^ (pos + 1)) * valNat va =
          valNat (divLoop (List.replicate pos 0 ++ va) rem2 pos).1 * valNat va +
            best * (BASE ^ (pos + 1) * valNat va) := by ring
      rw [hq, ← hVsh]
      omega
    · exact boundedL_append_single e5 hsB
    · simp [e6]

theorem Valid_zero : Valid int2048.zero :=
  ⟨boundedL_nil, rfl, fun _ => rfl⟩

/-- Full correctness of `int2048::divmod_abs` for a nonzero divisor:
quotient/remainder identity, remainder range, representation validity of both
outputs, and the small-dividend short-circuit. -/
theorem divmodAbs_spec (u v : int2048) (hu : Valid u) (hv : Valid v)
    (hvne : v.a ≠ []) :
    valNat u.a = valNat (divmodAbs u v).1.a * valNat v.a +
        valNat (divmodAbs u v).2.a ∧
      valNat (divmodAbs u v).2.a < valNat v.a ∧
      Valid (divmodAbs u v).1 ∧ Valid (divmodAbs u v).2 ∧
      (divmodAbs u v).1.neg = false ∧
      (valNat u.a < valNat v.a →
        (divmodAbs u v).1 = int2048.zero ∧ (divmodAbs u v).2 = u) := by
  obtain ⟨hbu, hcu, hzu⟩ := hu
  obtain ⟨hbv, hcv, hzv⟩ := hv
  have hg1 : ¬ v.a.isEmpty = true := by simpa [List.isEmpty_iff] using hvne
  have hV1 : 1 ≤ valNat v.a := by
    have := pow_le_valNat_of_canon hcv hvne
    have h1 : (1:Nat) ≤ BASE ^ (v.a.length - 1) := Nat.one_le_pow _ _ BASE_pos
    omega
  by_cases hcmp : cmpAbsL u.a v.a < 0
  · have hUV : valNat u.a < valNat v.a :=
      (cmpAbsL_lt_zero_iff hbu hbv hcu hcv).mp hcmp
    have hout : divmodAbs u v = (int2048.zero, u) := by
      unfold divmodAbs
      rw [if_neg hg1, if_pos hcmp]
    rw [hout]
    refine ⟨by simp [int2048.zero, valNat], hUV, Valid_zero,
      ⟨hbu, hcu, hzu⟩, rfl, fun _ => ⟨rfl, rfl⟩⟩
  · have hVU : valNat v.a ≤ valNat u.a := by
      rcases cmpAbsL_spec hbu hbv hcu hcv with ⟨h1, h2⟩ | ⟨h1, h2⟩ | ⟨h1, h2⟩
      · rw [h1] at hcmp
        omega
      · rw [h2]
      · omega
    have hlenvu : v.a.length ≤ u.a.length :=
      length_le_of_valNat_le hcv hbu hVU
    have hune : u.a ≠ [] := by
      intro h
      rw [h] at hVU
      simp [valNat] at hVU
      omega
    set k := u.a.length - v.a.length with hk
    have hpre : valNat u.a < valNat v.a * BASE ^ (k + 1) := by
      have h1 : valNat u.a < BASE ^ u.a.length := valNat_lt_pow hbu
      have h2 : BASE ^ (v.a.length - 1) ≤ valNat v.a :=
        pow_le_valNat_of_canon hcv hvne
      have hlv1 : 1 ≤ v.a.length := by
        have : v.a.length ≠ 0 := by simpa using hvne
        omega
      have h3 : BASE ^ u.a.length ≤ BASE ^ (v.a.length - 1) * BASE ^ (k + 1) := by
        rw [← pow_add]
        apply Nat.pow_le_pow_right (by decide)
        omega
      have h4 : BASE ^ (v.a.length - 1) * BASE ^ (k + 1) ≤
          valNat v.a * BASE ^ (k + 1) := Nat.mul_le_mul_right _ h2
      omega
    have hout : divmodAbs u v =
        (⟨trimL (divLoop (List.replicate k 0 ++ v.a) u.a k).1, false⟩,
          ⟨(divLoop (List.replicate k 0 ++ v.a) u.a k).2, false⟩) := by
      unfold divmodAbs
      rw [if_neg hg1, if_neg hcmp]
    obtain ⟨e1, e2, e3, e4, e5, e6⟩ :=
      divLoop_spec k v.a u.a hbv hcv hvne hbu hcu hpre
    rw [hout]
    refine ⟨?_, e2, ⟨boundedL_trimL e5, canonL_trimL _, fun _ => rfl⟩,
      ⟨e3, e4, fun _ => rfl⟩, rfl, ?_⟩
    · simp only [valNat_trimL]
      omega
    · intro h
      omega

/-! ### Value and validity of the signed operations -/

theorem value_mk (a : List Nat) (f : Bool) :
    value ⟨a, f⟩ = if f then -(valNat a : Int) else (valNat a : Int) := rfl

theorem value_mk_and_ne (a : List Nat) (g : Bool) :
    value ⟨a, g && !a.isEmpty⟩ =
      if g then -(valNat a : Int) else (valNat a : Int) := by
  cases g with
  | false => rfl
  | true =>
    by_cases h : a.isEmpty
    · have hnil := List.isEmpty_iff.mp h
      subst hnil
      simp [value, valNat]
    · simp [value_mk, h]

theorem valNat_pos_of_ne_nil {a : List Nat} (hc : canonL a = true) (h : a ≠ []) :
    1 ≤ valNat a := by
  have := (valNat_eq_zero_iff_nil hc).not
  have h2 : valNat a ≠ 0 := by
    intro h0
    exact h ((valNat_eq_zero_iff_nil hc).mp h0)
  omega

theorem ne_nil_of_valNat_pos {a : List Nat} (h : valNat a ≠ 0) : a ≠ [] := by
  intro hnil
  subst hnil
  exact h rfl

/-- `int2048::add` preserves the representation invariant and computes the
signed sum. -/
theorem add_spec {x b : int2048} (hx : Valid x) (hb : Valid b) :
    Valid (x.add b) ∧ value (x.add b) = value x + value b := by
  obtain ⟨hbx, hcx, hzx⟩ := hx
  obtain ⟨hbb, hcb, hzb⟩ := hb
  unfold int2048.add
  by_cases hsgn : x.neg = b.neg
  · rw [if_pos hsgn]
    have hval := addAbsL_val x.a b.a
    have hbdd := addAbsL_bounded hbx hbb
    have hcan := addAbsL_canon hbx hbb hcx hcb
    refine ⟨⟨hbdd, hcan, ?_⟩, ?_⟩
    · intro h
      have h2 : addAbsL x.a b.a = [] := h
      show (x.neg && !(addAbsL x.a b.a).isEmpty) = false
      rw [h2]
      simp
    · rw [value_mk_and_ne]
      cases hxn : x.neg with
      | false =>
        have hbn : b.neg = false := by rw [← hsgn]; exact hxn
        simp only [value, hxn, hbn, if_false, Bool.false_eq_true, hval]
        push_cast
        ring
      | true =>
        have hbn : b.neg = true := by rw [← hsgn]; exact hxn
        simp only [value, hxn, hbn, if_true, hval]
        push_cast
        ring
  · rw [if_neg hsgn]
    rcases cmpAbsL_spec hbx hbb hcx hcb with ⟨h1, h2⟩ | ⟨h1, h2⟩ | ⟨h1, h2⟩
    · -- |x| < |b| : result is |b| - |x| with b's sign
      rw [h1]
      rw [if_neg (by decide), if_neg (by decide)]
      have hlen : x.a.length ≤ b.a.length := length_le_of_valNat_le hcx hbb (by omega)
      have hsub := subAbsL_val hbb hbx hlen (by omega)
      have hne : subAbsL b.a x.a ≠ [] := by
        apply ne_nil_of_valNat_pos
        rw [hsub]
        omega
      refine ⟨⟨subAbsL_bounded hbb, subAbsL_canon _ _, fun h => absurd h hne⟩, ?_⟩
      rw [value_mk]
      have hxb : x.neg = !b.neg := by
        cases hxn : x.neg <;> cases hbn : b.neg <;> simp_all
      cases hbn : b.neg with
      | false =>
        rw [hbn] at hxb
        simp only [value, hxb, hbn, hsub]
        simp only [Bool.not_false, if_true, if_false, Bool.false_eq_true]
        have : (↑(valNat b.a - valNat x.a) : Int) = valNat b.a - valNat x.a := by
          push_cast [Nat.cast_sub (le_of_lt h2)]
          ring
        rw [this]
        ring
      | true =>
        rw [hbn] at hxb
        simp only [value, hxb, hbn, hsub]
        simp only [Bool.not_true, if_true, if_false, Bool.false_eq_true]
        have : (↑(valNat b.a - valNat x.a) : Int) = valNat b.a - valNat x.a := by
          push_cast [Nat.cast_sub (le_of_lt h2)]
          ring
        rw [this]
        ring
    · -- equal magnitudes, opposite signs: zero
      rw [h1]
      rw [if_pos rfl]
      refine ⟨Valid_zero, ?_⟩
      have hxb : x.neg = !b.neg := by
        cases hxn : x.neg <;> cases hbn : b.neg <;> simp_all
      have hz : value (⟨[], false⟩ : int2048) = 0 := rfl
      rw [hz]
      simp only [value, hxb, h2]
      cases hbn : b.neg with
      | false =>
        simp only [Bool.not_false, if_true, Bool.false_eq_true, if_false]
        omega
      | true =>
        simp only [Bool.not_true, if_true, Bool.false_eq_true, if_false]
        omega
    · -- |x| > |b| : result is |x| - |b| with x's sign
      rw [h1]
      rw [if_neg (by decide), if_pos (by decide)]
      have hlen : b.a.length ≤ x.a.length := length_le_of_valNat_le hcb hbx (by omega)
      have hsub := subAbsL_val hbx hbb hlen (by omega)
      have hne : subAbsL x.a b.a ≠ [] := by
        apply ne_nil_of_valNat_pos
        rw [hsub]
        omega
      refine ⟨⟨subAbsL_bounded hbx, subAbsL_canon _ _, fun h => absurd h hne⟩, ?_⟩
      rw [value_mk]
      have hxb : x.neg = !b.neg := by
        cases hxn : x.neg <;> cases hbn : b.neg <;> simp_all
      cases hxn : x.neg with
      | false =>
        have hbn : b.neg = true := by
          rw [hxn] at hxb
          simpa using hxb.symm
        simp only [value, hxn, hbn, hsub, if_true, if_false, Bool.false_eq_true]
        have : (↑(valNat x.a - valNat b.a) : Int) = valNat x.a - valNat b.a := by
          push_cast [Nat.cast_sub (le_of_lt h2)]
          ring
        rw [this]
        ring
      | true =>
        have hbn : b.neg = false := by
          rw [hxn] at hxb
          simpa using hxb.symm
        simp only [value, hxn, hbn, hsub, if_true, if_false, Bool.false_eq_true]
        have : (↑(valNat x.a - valNat b.a) : Int) = valNat x.a - valNat b.a := by
          push_cast [Nat.cast_sub (le_of_lt h2)]
          ring
        rw [this]
        ring

/-- `int2048::minus` preserves the representation invariant and computes the
signed difference. -/
theorem minus_spec {x b : int2048} (hx : Valid x) (hb : Valid b) :
    Valid (x.minus b) ∧ value (x.minus b) = value x - value b := by
  obtain ⟨hbx, hcx, hzx⟩ := hx
  obtain ⟨hbb, hcb, hzb⟩ := hb
  unfold int2048.minus
  by_cases hsgn : x.neg ≠ b.neg
  · rw [if_pos hsgn]
    have hval := addAbsL_val x.a b.a
    have hbdd := addAbsL_bounded hbx hbb
    have hcan := addAbsL_canon hbx hbb hcx hcb
    refine ⟨⟨hbdd, hcan, ?_⟩, ?_⟩
    · intro h
      have h2 : addAbsL x.a b.a = [] := h
      show (x.neg && !(addAbsL x.a b.a).isEmpty) = false
      rw [h2]
      simp
    · rw [value_mk_and_ne]
      cases hxn : x.neg with
      | false =>
        have hbn : b.neg = true := by
          cases hbn : b.neg
          · rw [hxn, hbn] at hsgn
            exact absurd rfl hsgn
          · rfl
        simp only [value, hxn, hbn, if_true, Bool.false_eq_true, if_false, hval]
        push_cast
        ring
      | true =>
        have hbn : b.neg = false := by
          cases hbn : b.neg
          · rfl
          · rw [hxn, hbn] at hsgn
            exact absurd rfl hsgn
        simp only [value, hxn, hbn, if_true, Bool.false_eq_true, if_false, hval]
        push_cast
        ring
  · rw [if_neg hsgn]
    push_neg at hsgn
    rcases cmpAbsL_spec hbx hbb hcx hcb with ⟨h1, h2⟩ | ⟨h1, h2⟩ | ⟨h1, h2⟩
    · -- |x| < |b| : result is |b| - |x| with b's sign flipped
      rw [h1]
      rw [if_neg (by decide), if_neg (by decide)]
      have hlen : x.a.length ≤ b.a.length := length_le_of_valNat_le hcx hbb (by omega)
      have hsub := subAbsL_val hbb hbx hlen (by omega)
      have hne : subAbsL b.a x.a ≠ [] := by
        apply ne_nil_of_valNat_pos
        rw [hsub]
        omega
      refine ⟨⟨subAbsL_bounded hbb, subAbsL_canon _ _, fun h => absurd h hne⟩, ?_⟩
      rw [value_mk]
      have hcast : (↑(valNat b.a - valNat x.a) : Int) =
          valNat b.a - valNat x.a := by
        push_cast [Nat.cast_sub (le_of_lt h2)]
        ring
      cases hbn : b.neg with
      | false =>
        have hxn : x.neg = false := by rw [hsgn, hbn]
        simp only [value, hxn, hbn, hsub, Bool.not_false, if_true,
          Bool.false_eq_true, if_false, hcast]
        ring
      | true =>
        have hxn : x.neg = true := by rw [hsgn, hbn]
        simp only [value, hxn, hbn, hsub, Bool.not_true, if_true,
          Bool.false_eq_true, if_false, hcast]
        ring
    · -- equal magnitudes, equal signs: zero
      rw [h1]
      rw [if_pos rfl]
      refine ⟨Valid_zero, ?_⟩
      have hz : value (⟨[], false⟩ : int2048) = 0 := rfl
      rw [hz]
      simp only [value, hsgn, h2]
      cases hbn : b.neg with
      | false =>
        simp only [Bool.false_eq_true, if_false]
        omega
      | true =>
        simp only [if_true]
        omega
    · -- |x| > |b| : result is |x| - |b| with x's sign
      rw [h1]
      rw [if_neg (by decide), if_pos (by decide)]
      have hlen : b.a.length ≤ x.a.length := length_le_of_valNat_le hcb hbx (by omega)
      have hsub := subAbsL_val hbx hbb hlen (by omega)
      have hne : subAbsL x.a b.a ≠ [] := by
        apply ne_nil_of_valNat_pos
        rw [hsub]
        omega
      refine ⟨⟨subAbsL_bounded hbx, subAbsL_canon _ _, fun h => absurd h hne⟩, ?_⟩
      rw [value_mk]
      have hcast : (↑(valNat x.a - valNat b.a) : Int) =
          valNat x.a - valNat b.a := by
        push_cast [Nat.cast_sub (le_of_lt h2)]
        ring
      cases hxn : x.neg with
      | false =>
        have hbn : b.neg = false := by rw [← hsgn, hxn]
        simp only [value, hxn, hbn, hsub, Bool.false_eq_true, if_false, hcast]
      | true =>
        have hbn : b.neg = true := by rw [← hsgn, hxn]
        simp only [value, hxn, hbn, hsub, if_true, hcast]
        ring

/-- Unary negation (`operator-`) preserves the invariant and negates the
value. -/
theorem negate_spec {x : int2048} (hx : Valid x) :
    Valid x.negate ∧ value x.negate = -(value x) := by
  obtain ⟨hbx, hcx, hzx⟩ := hx
  unfold int2048.negate
  by_cases h : x.a.isEmpty
  · rw [if_pos h]
    have hnil : x.a = [] := List.isEmpty_iff.mp h
    refine ⟨⟨hbx, hcx, hzx⟩, ?_⟩
    simp [value, hnil, valNat, hzx hnil]
  · rw [if_neg h]
    have hne : x.a ≠ [] := by simpa [List.isEmpty_iff] using h
    refine ⟨⟨hbx, hcx, fun h2 => absurd h2 hne⟩, ?_⟩
    rw [value_mk]
    cases hxn : x.neg <;> simp [value, hxn]

/-- `operator*=` preserves the invariant and computes the signed product. -/
theorem mul_spec {x b : int2048} (hx : Valid x) (hb : Valid b) :
    Valid (x.mul b) ∧ value (x.mul b) = value x * value b := by
  obtain ⟨hbx, hcx, hzx⟩ := hx
  obtain ⟨hbb, hcb, hzb⟩ := hb
  unfold int2048.mul
  have hval := mulSimpleL_val x.a b.a
  have hbdd := mulSimpleL_bounded hbx hbb
  have hcan := mulSimpleL_canon x.a b.a
  refine ⟨⟨hbdd, hcan, ?_⟩, ?_⟩
  · intro h
    have h2 : mulSimpleL x.a b.a = [] := h
    show ((x.neg != b.neg) && !(mulSimpleL x.a b.a).isEmpty) = false
    rw [h2]
    simp
  · rw [value_mk_and_ne]
    cases hxn : x.neg with
    | false =>
      cases hbn : b.neg with
      | false =>
        simp only [value, hxn, hbn, bne_self_eq_false, Bool.false_eq_true,
          if_false, hval]
        push_cast
        ring
      | true =>
        simp only [value, hxn, hbn, if_true, Bool.false_eq_true, if_false, hval]
        have : (false != true) = true := rfl
        rw [this, if_pos rfl]
        push_cast
        ring
    | true =>
      cases hbn : b.neg with
      | false =>
        simp only [value, hxn, hbn, if_true, Bool.false_eq_true, if_false, hval]
        have : (true != false) = true := rfl
        rw [this, if_pos rfl]
        push_cast
        ring
      | true =>
        simp only [value, hxn, hbn, if_true, hval]
        have : (true != true) = false := rfl
        rw [this, if_neg (by simp)]
        push_cast
        ring

/-! ### Floor division: relating the sign reconciliation to `Int.fdiv` -/

theorem neg_coe_eq_negSucc {m : Nat} (h : 1 ≤ m) :
    -(m : Int) = Int.negSucc (m - 1) := by
  rw [Int.negSucc_eq]
  omega

theorem fdiv_coe_coe (m n : Nat) : Int.fdiv (m : Int) (n : Int) = (m / n : Nat) := by
  cases m with
  | zero => simp [Int.fdiv]
  | succ k => rfl

/-- Case analysis of `Int.fdiv` on sign/remainder configurations, phrased for
a quotient-remainder pair of the magnitudes. -/
theorem fdiv_cases (U V q0 r0 : Nat) (hV : 1 ≤ V) (heq : U = q0 * V + r0)
    (hr : r0 < V) :
    Int.fdiv (U : Int) (V : Int) = (q0 : Int) ∧
      Int.fdiv (-(U : Int)) (-(V : Int)) = (q0 : Int) ∧
      (r0 = 0 → Int.fdiv (-(U : Int)) (V : Int) = -(q0 : Int) ∧
        Int.fdiv (U : Int) (-(V : Int)) = -(q0 : Int)) ∧
      (r0 ≠ 0 → Int.fdiv (-(U : Int)) (V : Int) = -((q0 : Int) + 1) ∧
        Int.fdiv (U : Int) (-(V : Int)) = -((q0 : Int) + 1)) := by
  have hq : U / V = q0 := by
    rw [heq, Nat.add_comm, Nat.add_mul_div_right _ _ hV, Nat.div_eq_of_lt hr]
    omega
  have hVsub : 1 ≤ V → V - 1 + 1 = V := fun _ => by omega
  refine ⟨?_, ?_, ?_, ?_⟩
  · rw [fdiv_coe_coe, hq]
  · by_cases hU : U = 0
    · have hq0 : q0 = 0 := by
        rw [hU] at heq
        have := Nat.eq_zero_of_add_eq_zero_right heq.symm
        rcases Nat.mul_eq_zero.mp this with h | h
        · exact h
        · omega
      subst hU
      rw [hq0]
      rw [show -((0:Nat):Int) = 0 from rfl]
      rw [neg_coe_eq_negSucc hV]
      rfl
    · have hU1 : 1 ≤ U := by omega
      rw [neg_coe_eq_negSucc hU1, neg_coe_eq_negSucc hV]
      rw [show Int.fdiv (Int.negSucc (U-1)) (Int.negSucc (V-1)) =
          Int.ofNat ((U-1+1) / (V-1+1)) from rfl]
      rw [Nat.sub_add_cancel hU1, Nat.sub_add_cancel hV, hq]
      rfl
  · intro hr0
    subst hr0
    by_cases hU : U = 0
    · have hq0 : q0 = 0 := by
        rw [hU] at heq
        rcases Nat.mul_eq_zero.mp (by omega : q0 * V = 0) with h | h
        · exact h
        · omega
      subst hU
      rw [hq0]
      constructor
      · rw [show -((0:Nat):Int) = 0 from rfl]
        simp [Int.fdiv]
      · rw [show -((0:Nat):Int) = 0 from rfl, neg_coe_eq_negSucc hV]
        rfl
    · have hU1 : 1 ≤ U := by omega
      have hq1 : 1 ≤ q0 := by
        by_contra hq0
        push_neg at hq0
        interval_cases q0
        omega
      have hdiv : (U - 1) / V = q0 - 1 := by
        have hU2 : U - 1 = (V - 1) + (q0 - 1) * V := by
          have h1 : (q0 - 1) * V = q0 * V - V := by
            rw [Nat.sub_mul]
            omega
          have h2 : 1 * V ≤ q0 * V := Nat.mul_le_mul_right V hq1
          omega
        rw [hU2, Nat.add_mul_div_right _ _ hV, Nat.div_eq_of_lt (by omega)]
        omega
      constructor
      · rw [neg_coe_eq_negSucc hU1]
        rw [show ((V:Nat):Int) = Int.ofNat V from rfl]
        rw [show (V : Nat) = (V - 1) + 1 from by omega]
        rw [show Int.fdiv (Int.negSucc (U-1)) (Int.ofNat (V-1+1)) =
            Int.negSucc ((U-1) / (V-1+1)) from rfl]
        rw [Nat.sub_add_cancel hV, hdiv, Int.negSucc_eq]
        push_cast [hq1]
        omega
      · rw [neg_coe_eq_negSucc hV]
        rw [show ((U:Nat):Int) = Int.ofNat U from rfl]
        rw [show (U : Nat) = (U - 1) + 1 from by omega]
        rw [show Int.fdiv (Int.ofNat (U-1+1)) (Int.negSucc (V-1)) =
            Int.negSucc ((U-1) / (V-1+1)) from rfl]
        rw [Nat.sub_add_cancel hV, hdiv, Int.negSucc_eq]
        push_cast [hq1]
        omega
  · intro hr0
    have hU1 : 1 ≤ U := by omega
    have hdiv : (U - 1) / V = q0 := by
      have hU2 : U - 1 = (r0 - 1) + q0 * V := by omega
      rw [hU2, Nat.add_mul_div_right _ _ hV, Nat.div_eq_of_lt (by omega)]
      omega
    constructor
    · rw [neg_coe_eq_negSucc hU1]
      rw [show ((V:Nat):Int) = Int.ofNat V from rfl]
      rw [show (V : Nat) = (V - 1) + 1 from by omega]
      rw [show Int.fdiv (Int.negSucc (U-1)) (Int.ofNat (V-1+1)) =
          Int.negSucc ((U-1) / (V-1+1)) from rfl]
      rw [Nat.sub_add_cancel hV, hdiv, Int.negSucc_eq]
    · rw [neg_coe_eq_negSucc hV]
      rw [show ((U:Nat):Int) = Int.ofNat U from rfl]
      rw [show (U : Nat) = (U - 1) + 1 from by omega]
      rw [show Int.fdiv (Int.ofNat (U-1+1)) (Int.negSucc (V-1)) =
          Int.negSucc ((U-1) / (V-1+1)) from rfl]
      rw [Nat.sub_add_cancel hV, hdiv, Int.negSucc_eq]

/-- `operator/=` computes floor division (`Int.fdiv`) of the signed values,
and preserves the representation invariant, for any nonzero divisor. -/
theorem div_spec {x b : int2048} (hx : Valid x) (hb : Valid b)
    (hbne : b.a ≠ []) :
    Valid (x.div b) ∧ value (x.div b) = Int.fdiv (value x) (value b) := by
  obtain ⟨hbx, hcx, hzx⟩ := hx
  obtain ⟨hbb, hcb, hzb⟩ := hb
  have hA : Valid (⟨x.a, false⟩ : int2048) := ⟨hbx, hcx, fun _ => rfl⟩
  have hB : Valid (⟨b.a, false⟩ : int2048) := ⟨hbb, hcb, fun _ => rfl⟩
  obtain ⟨d1, d2, d3, d4, d5, d6⟩ :=
    divmodAbs_spec ⟨x.a, false⟩ ⟨b.a, false⟩ hA hB hbne
  dsimp only at d1 d2
  have hV1 : 1 ≤ valNat b.a := valNat_pos_of_ne_nil hcb hbne
  obtain ⟨f1, f2, f3, f4⟩ :=
    fdiv_cases (valNat x.a) (valNat b.a)
      (valNat (divmodAbs ⟨x.a, false⟩ ⟨b.a, false⟩).1.a)
      (valNat (divmodAbs ⟨x.a, false⟩ ⟨b.a, false⟩).2.a) hV1 d1 d2
  obtain ⟨dq1, dq2, dq3⟩ := d3
  obtain ⟨dr1, dr2, dr3⟩ := d4
  unfold int2048.div
  by_cases hbr : ((x.neg != b.neg) &&
      !(divmodAbs ⟨x.a, false⟩ ⟨b.a, false⟩).2.a.isEmpty) = true
  · rw [if_pos hbr]
    rcases Bool.and_eq_true_iff.mp hbr with ⟨hneq, hrne⟩
    have hrnil : (divmodAbs ⟨x.a, false⟩ ⟨b.a, false⟩).2.a ≠ [] := by
      intro h
      rw [h] at hrne
      simp at hrne
    have hr0 : valNat (divmodAbs ⟨x.a, false⟩ ⟨b.a, false⟩).2.a ≠ 0 := by
      have := valNat_pos_of_ne_nil dr2 hrnil
      omega
    have hone : boundedL [1] := by
      intro z hz
      simp only [List.mem_singleton] at hz
      subst hz
      decide
    have honec : canonL [1] = true := by decide
    have haddval : valNat (addAbsL (divmodAbs ⟨x.a, false⟩ ⟨b.a, false⟩).1.a [1]) =
        valNat (divmodAbs ⟨x.a, false⟩ ⟨b.a, false⟩).1.a + 1 := by
      rw [addAbsL_val]
      rfl
    have haddne : addAbsL (divmodAbs ⟨x.a, false⟩ ⟨b.a, false⟩).1.a [1] ≠ [] := by
      intro h
      rcases addAbsL_eq_nil_iff.mp h with ⟨-, h2⟩
      exact absurd h2 (by simp)
    refine ⟨⟨addAbsL_bounded dq1 hone, addAbsL_canon dq1 hone dq2 honec,
      fun h => absurd h haddne⟩, ?_⟩
    rw [value_mk, if_pos rfl, haddval]
    obtain ⟨g1, g2⟩ := f4 hr0
    cases hxn : x.neg with
    | false =>
      have hbn : b.neg = true := by
        cases hbn : b.neg
        · rw [hxn, hbn] at hneq
          simp at hneq
        · rfl
      simp only [value, hxn, hbn, if_true, Bool.false_eq_true, if_false]
      rw [g2]
      push_cast
      ring
    | true =>
      have hbn : b.neg = false := by
        cases hbn : b.neg
        · rfl
        · rw [hxn, hbn] at hneq
          simp at hneq
      simp only [value, hxn, hbn, if_true, Bool.false_eq_true, if_false]
      rw [g1]
      push_cast
      ring
  · rw [if_neg hbr]
    refine ⟨⟨dq1, dq2, ?_⟩, ?_⟩
    · intro h
      show ((x.neg != b.neg) &&
        !(divmodAbs ⟨x.a, false⟩ ⟨b.a, false⟩).1.a.isEmpty) = false
      rw [h]
      simp
    · rw [value_mk_and_ne]
      by_cases hneq : (x.neg != b.neg) = true
      · -- signs differ but remainder is zero
        have hrnil : (divmodAbs ⟨x.a, false⟩ ⟨b.a, false⟩).2.a = [] := by
          by_contra h
          apply hbr
          rw [Bool.and_eq_true_iff]
          exact ⟨hneq, by simpa [List.isEmpty_iff] using h⟩
        have hr0 : valNat (divmodAbs ⟨x.a, false⟩ ⟨b.a, false⟩).2.a = 0 := by
          rw [hrnil]
          rfl
        obtain ⟨g1, g2⟩ := f3 hr0
        rw [if_pos hneq]
        cases hxn : x.neg with
        | false =>
          have hbn : b.neg = true := by
            cases hbn : b.neg
            · rw [hxn, hbn] at hneq
              simp at hneq
            · rfl
          simp only [value, hxn, hbn, if_true, Bool.false_eq_true, if_false]
          rw [g2]
        | true =>
          have hbn : b.neg = false := by
            cases hbn : b.neg
            · rfl
            · rw [hxn, hbn] at hneq
              simp at hneq
          simp only [value, hxn, hbn, if_true, Bool.false_eq_true, if_false]
          rw [g1]
      · -- equal signs
        have hneq2 : x.neg = b.neg := by
          cases hxn : x.neg <;> cases hbn : b.neg <;> simp_all
        rw [if_neg hneq]
        cases hbn : b.neg with
        | false =>
          have hxn : x.neg = false := by rw [hneq2, hbn]
          simp only [value, hxn, hbn, Bool.false_eq_true, if_false]
          rw [f1]
        | true =>
          have hxn : x.neg = true := by rw [hneq2, hbn]
          simp only [value, hxn, hbn, if_true]
          rw [f2]

/-! ### Division and modulo by zero -/

theorem addAbsL_nil_right {l : List Nat} (h : boundedL l) : addAbsL l [] = l := by
  unfold addAbsL
  induction l with
  | nil => decide
  | cons d rest ih =>
    have hd : d < BASE := boundedL_head h
    simp only [addCarryL]
    have h1 : d + 0 = d := by omega
    rw [h1, Nat.mod_eq_of_lt hd, Nat.div_eq_of_lt hd]
    rw [ih (boundedL_tail h)]

theorem subBorrowL_nil_zero {l : List Nat} (h : boundedL l) :
    subBorrowL l [] 0 = l := by
  induction l with
  | nil => rfl
  | cons d rest ih =>
    simp only [subBorrowL, List.headD, List.tail]
    rw [if_neg (by simp)]
    rw [ih (boundedL_tail h)]
    simp

/-- `a / 0` silently yields zero: the magnitude routine returns `(0, 0)` and
the sign fixup leaves it zero. -/
theorem div_zero_spec (x b : int2048) (hbz : b.a = []) :
    x.div b = int2048.zero := by
  unfold int2048.div
  have hout : divmodAbs ⟨x.a, false⟩ ⟨b.a, false⟩ = (int2048.zero, int2048.zero) := by
    unfold divmodAbs
    rw [if_pos (by simp [hbz])]
  rw [hout]
  rw [if_neg (by simp [int2048.zero])]
  simp [int2048.zero]

/-- `a % 0` yields the absolute value of `a`: the quotient is zero, the
product is zero, and the signed subtraction of zero from `a` loses `a`'s
sign because the flag is read back after `*this` was already overwritten. -/
theorem mod_zero_spec {x : int2048} (hx : Valid x) (b : int2048)
    (hbz : b.a = []) : value (x.mod b) = |value x| ∧ Valid (x.mod b) := by
  obtain ⟨hbx, hcx, hzx⟩ := hx
  unfold int2048.mod
  dsimp only
  have hq : x.div b = int2048.zero := div_zero_spec x b hbz
  rw [hq]
  have hprod : int2048.zero.mul b = ⟨[], false⟩ := by
    unfold int2048.mul mulSimpleL
    rw [if_pos (by simp [int2048.zero])]
    simp [int2048.zero]
  rw [hprod]
  dsimp only
  cases hxn : x.neg with
  | true =>
    rw [if_pos (by simp [hxn])]
    rw [addAbsL_nil_right hbx]
    have hxne : x.a ≠ [] := by
      intro h
      rw [hzx h] at hxn
      cases hxn
    constructor
    · simp only [value, value_mk, hxn, if_true, Bool.false_eq_true, if_false]
      rw [abs_neg, abs_of_nonneg (by positivity)]
    · exact ⟨hbx, hcx, fun _ => rfl⟩
  | false =>
    rw [if_neg (by simp [hxn])]
    rcases eq_or_ne x.a [] with hnil | hne
    · rw [show cmpAbsL x.a [] = 0 from by rw [hnil]; rfl, if_pos rfl]
      constructor
      · simp only [value, value_mk, hxn, hnil, Bool.false_eq_true, if_false,
          valNat_nil]
        rfl
      · exact Valid_zero
    · have hcmp : cmpAbsL x.a [] = 1 := by
        unfold cmpAbsL
        rw [if_pos (by simpa using hne)]
        rw [if_neg (by simp)]
      rw [hcmp]
      rw [if_neg (by decide), if_pos (by decide)]
      have hsub : subAbsL x.a [] = x.a := by
        unfold subAbsL
        rw [subBorrowL_nil_zero hbx]
        exact trimL_eq_self_of_canon hcx
      rw [hsub]
      constructor
      · simp only [value, value_mk, hxn, Bool.false_eq_true, if_false]
        rw [abs_of_nonneg (by positivity)]
      · exact ⟨hbx, hcx, fun _ => rfl⟩

/-- `operator/=` preserves the representation invariant for every divisor. -/
theorem div_valid {x b : int2048} (hx : Valid x) (hb : Valid b) :
    Valid (x.div b) := by
  rcases eq_or_ne b.a [] with hbz | hbne
  · rw [div_zero_spec x b hbz]
    exact Valid_zero
  · exact (div_spec hx hb hbne).1

/-! ### Lemmas about `read` (decimal parsing) -/

theorem dropWhile_append_all {p : Char → Bool} :
    ∀ {w r : List Char}, (∀ c ∈ w, p c = true) →
    List.dropWhile p (w ++ r) = List.dropWhile p r := by
  intro w
  induction w with
  | nil => intro r _; rfl
  | cons c rest ih =>
    intro r hw
    have hc : p c = true := hw c (by simp)
    simp only [List.cons_append, List.dropWhile_cons, hc, if_true]
    exact ih (fun z hz => hw z (by simp [hz]))

theorem dropWhile_all_nil {p : Char → Bool} :
    ∀ {l : List Char}, (∀ c ∈ l, p c = true) → List.dropWhile p l = [] := by
  intro l
  induction l with
  | nil => intro _; rfl
  | cons c rest ih =>
    intro hl
    have hc : p c = true := hl c (by simp)
    simp only [List.dropWhile_cons, hc, if_true]
    exact ih (fun z hz => hl z (by simp [hz]))

theorem dropWhile_cons_false {p : Char → Bool} {c : Char} {rest : List Char}
    (h : p c = false) : List.dropWhile p (c :: rest) = c :: rest := by
  simp [List.dropWhile_cons, h]

theorem isDigit_char_props {c : Char} (h : isDigitCh c = true) :
    isSpaceCh c = false ∧ c ≠ '+' ∧ c ≠ '-' := by
  have h2 : 48 ≤ c.toNat ∧ c.toNat ≤ 57 := by
    simpa [isDigitCh] using h
  refine ⟨?_, ?_, ?_⟩
  · rw [Bool.eq_false_iff]
    intro hsp
    simp only [isSpaceCh, Bool.or_eq_true, decide_eq_true_eq] at hsp
    rcases hsp with ((((h3 | h3) | h3) | h3) | h3) | h3 <;>
      (subst h3; exact absurd h2 (by decide))
  · intro h3
    subst h3
    exact absurd h2 (by decide)
  · intro h3
    subst h3
    exact absurd h2 (by decide)

theorem decValue_from (l : List Char) : ∀ v : Nat,
    List.foldl (fun acc c => acc * 10 + (c.toNat - 48)) v l =
      v * 10 ^ l.length + decValue l := by
  induction l with
  | nil => intro v; simp [decValue]
  | cons c cs ih =>
    intro v
    have h1 := ih (v * 10 + (c.toNat - 48))
    have h2 := ih (0 * 10 + (c.toNat - 48))
    simp only [List.foldl_cons, decValue] at *
    rw [h1, h2]
    simp only [List.length_cons, pow_succ]
    ring

theorem decValue_append (l1 l2 : List Char) :
    decValue (l1 ++ l2) = decValue l1 * 10 ^ l2.length + decValue l2 := by
  unfold decValue
  rw [List.foldl_append]
  exact decValue_from l2 _

theorem blockVal_eq_decValue : ∀ (cs : List Char),
    (∀ c ∈ cs, isDigitCh c = true) → blockVal cs = decValue cs := by
  have haux : ∀ (cs : List Char) (v : Nat), (∀ c ∈ cs, isDigitCh c = true) →
      List.foldl (fun w c => if isDigitCh c then w * 10 + (c.toNat - 48) else w) v cs =
      List.foldl (fun acc c => acc * 10 + (c.toNat - 48)) v cs := by
    intro cs
    induction cs with
    | nil => intro v _; rfl
    | cons c rest ih =>
      intro v hcs
      have hc : isDigitCh c = true := hcs c (by simp)
      simp only [List.foldl_cons, hc, if_true]
      exact ih _ (fun z hz => hcs z (by simp [hz]))
  intro cs hcs
  unfold blockVal decValue
  exact haux cs 0 hcs

theorem blockVal_foldl_lt : ∀ (cs : List Char) (v : Nat),
    List.foldl (fun w c => if isDigitCh c then w * 10 + (c.toNat - 48) else w) v cs <
      (v + 1) * 10 ^ cs.length := by
  intro cs
  induction cs with
  | nil =>
    intro v
    simp
  | cons c rest ih =>
    intro v
    simp only [List.foldl_cons, List.length_cons]
    have hstep : (if isDigitCh c then v * 10 + (c.toNat - 48) else v) + 1 ≤
        (v + 1) * 10 := by
      by_cases hc : isDigitCh c = true
      · have h2 : 48 ≤ c.toNat ∧ c.toNat ≤ 57 := by simpa [isDigitCh] using hc
        rw [if_pos hc]
        omega
      · rw [if_neg hc]
        omega
    calc List.foldl _ (if isDigitCh c then v * 10 + (c.toNat - 48) else v) rest
        < ((if isDigitCh c then v * 10 + (c.toNat - 48) else v) + 1) *
            10 ^ rest.length := ih _
      _ ≤ ((v + 1) * 10) * 10 ^ rest.length := Nat.mul_le_mul_right _ hstep
      _ = (v + 1) * 10 ^ (rest.length + 1) := by ring

theorem blockVal_lt {cs : List Char} (h : cs.length ≤ 4) : blockVal cs < BASE := by
  have h1 := blockVal_foldl_lt cs 0
  have h2 : (10:Nat) ^ cs.length ≤ 10 ^ 4 :=
    Nat.pow_le_pow_right (by norm_num) h
  unfold blockVal
  simp only [BASE_eq]
  omega

theorem chunksRev_bounded : ∀ (r : List Char), boundedL (chunksRev r) := by
  intro r
  induction r using chunksRev.induct with
  | case1 => exact boundedL_nil
  | case2 c1 =>
    intro z hz
    simp only [chunksRev, List.mem_singleton] at hz
    subst hz
    exact blockVal_lt (by simp)
  | case3 c1 c2 =>
    intro z hz
    simp only [chunksRev, List.mem_singleton] at hz
    subst hz
    exact blockVal_lt (by simp)
  | case4 c1 c2 c3 =>
    intro z hz
    simp only [chunksRev, List.mem_singleton] at hz
    subst hz
    exact blockVal_lt (by simp)
  | case5 c1 c2 c3 c4 rest ih =>
    intro z hz
    simp only [chunksRev, List.mem_cons] at hz
    rcases hz with rfl | hz2
    · exact blockVal_lt (by simp)
    · exact ih z hz2

theorem chunksRev_val : ∀ (r : List Char), (∀ c ∈ r, isDigitCh c = true) →
    valNat (chunksRev r) = decValue r.reverse := by
  intro r
  induction r using chunksRev.induct with
  | case1 => intro _; rfl
  | case2 c1 =>
    intro hd
    simp only [chunksRev, valNat_cons, valNat_nil, List.reverse_singleton]
    rw [blockVal_eq_decValue [c1] (by simpa using hd)]
    omega
  | case3 c1 c2 =>
    intro hd
    simp only [chunksRev, valNat_cons, valNat_nil]
    rw [blockVal_eq_decValue [c2, c1] (by
      intro z hz
      rcases List.mem_cons.mp hz with rfl | hz2
      · exact hd z (by simp)
      · simp only [List.mem_singleton] at hz2
        subst hz2
        exact hd z (by simp))]
    rw [show ([c1, c2] : List Char).reverse = [c2, c1] from rfl]
    omega
  | case4 c1 c2 c3 =>
    intro hd
    simp only [chunksRev, valNat_cons, valNat_nil]
    rw [blockVal_eq_decValue [c3, c2, c1] (by
      intro z hz
      have : z ∈ ([c1, c2, c3] : List Char) := by
        simp only [List.mem_cons, List.mem_singleton] at hz ⊢
        tauto
      exact hd z this)]
    rw [show ([c1, c2, c3] : List Char).reverse = [c3, c2, c1] from rfl]
    omega
  | case5 c1 c2 c3 c4 rest ih =>
    intro hd
    have hrest : ∀ c ∈ rest, isDigitCh c = true := by
      intro z hz
      exact hd z (by simp [hz])
    simp only [chunksRev, valNat_cons]
    rw [ih hrest]
    rw [blockVal_eq_decValue [c4, c3, c2, c1] (by
      intro z hz
      have : z ∈ (c1 :: c2 :: c3 :: c4 :: rest) := by
        simp only [List.mem_cons, List.mem_singleton] at hz ⊢
        tauto
      exact hd z this)]
    rw [show (c1 :: c2 :: c3 :: c4 :: rest).reverse =
        rest.reverse ++ [c4, c3, c2, c1] from by simp]
    rw [decValue_append]
    simp only [List.length_cons, List.length_nil, BASE_eq]
    ring

theorem valid_mk_and (a : List Nat) (g : Bool) (hb : boundedL a)
    (hc : canonL a = true) : Valid ⟨a, g && !a.isEmpty⟩ := by
  refine ⟨hb, hc, fun h => ?_⟩
  have h2 : a = [] := h
  subst h2
  simp

/-- `read` always leaves the instance in canonical, bounded form with the
signed-zero rule respected. -/
theorem readL_valid (s : List Char) : Valid (readL s) := by
  unfold readL
  dsimp only
  split
  · exact Valid_zero
  · exact valid_mk_and _ _ (boundedL_trimL (chunksRev_bounded _)) (canonL_trimL _)

/-- After whitespace and sign, trailing junk is discarded: the reversed scan
range is exactly the reversed digit run. -/
theorem read_scan_range (ds j : List Char) (hd1 : ds ≠ [])
    (hd2 : ∀ c ∈ ds, isDigitCh c = true) (hj : ∀ c ∈ j, isDigitCh c = false) :
    (ds ++ j).reverse.dropWhile (fun c => !isDigitCh c) = ds.reverse := by
  rw [List.reverse_append]
  rw [dropWhile_append_all (by
    intro c hc
    rw [List.mem_reverse] at hc
    simp [hj c hc])]
  obtain ⟨d, rest, hrev⟩ : ∃ d rest, ds.reverse = d :: rest := by
    cases hrev : ds.reverse with
    | nil =>
      have : ds = [] := by simpa using congrArg List.reverse hrev
      exact absurd this hd1
    | cons d rest => exact ⟨d, rest, rfl⟩
  rw [hrev]
  refine dropWhile_cons_false ?_
  have hdmem : d ∈ ds := by
    rw [← List.mem_reverse, hrev]
    simp
  simp [hd2 d hdmem]

/-- Parsing a well-formed token: optional whitespace, optional sign, a
nonempty digit run, then digit-free junk.  The parsed value is the signed
decimal value of the digit run. -/
theorem readL_wellformed (w sgn ds j : List Char)
    (hw : ∀ c ∈ w, isSpaceCh c = true)
    (hs : sgn = [] ∨ sgn = ['+'] ∨ sgn = ['-'])
    (hd1 : ds ≠ []) (hd2 : ∀ c ∈ ds, isDigitCh c = true)
    (hj : ∀ c ∈ j, isDigitCh c = false) :
    value (readL (w ++ sgn ++ ds ++ j)) =
      (if sgn = ['-'] then -1 else 1) * (decValue ds : Int) := by
  have hassoc : w ++ sgn ++ ds ++ j = w ++ (sgn ++ (ds ++ j)) := by
    simp [List.append_assoc]
  have hscan := read_scan_range ds j hd1 hd2 hj
  have hval : valNat (trimL (chunksRev ds.reverse)) = decValue ds := by
    rw [valNat_trimL, chunksRev_val ds.reverse (by
      intro c hc
      rw [List.mem_reverse] at hc
      exact hd2 c hc)]
    rw [List.reverse_reverse]
  have hcanon : canonL (trimL (chunksRev ds.reverse)) = true := canonL_trimL _
  rcases hs with rfl | rfl | rfl
  · -- no sign
    obtain ⟨d, ds2, rfl⟩ : ∃ d ds2, ds = d :: ds2 := by
      cases ds with
      | nil => exact absurd rfl hd1
      | cons d ds2 => exact ⟨d, ds2, rfl⟩
    have hdig := hd2 d (by simp)
    obtain ⟨hns, hnp, hnm⟩ := isDigit_char_props hdig
    have ht : (w ++ [] ++ (d :: ds2) ++ j).dropWhile isSpaceCh =
        d :: (ds2 ++ j) := by
      rw [hassoc, dropWhile_append_all hw]
      simp only [List.nil_append, List.cons_append]
      exact dropWhile_cons_false hns
    unfold readL
    rw [ht]
    dsimp only
    rw [show ((d = '+' : Bool) || (d = '-' : Bool)) = false from by
      simp [hnp, hnm]]
    simp only [Bool.false_eq_true, if_false]
    rw [show (d :: (ds2 ++ j)) = (d :: ds2) ++ j from rfl]
    rw [hscan]
    rw [if_neg (by
      intro hempty
      have : (d :: ds2).reverse = [] := List.isEmpty_iff.mp hempty
      have : (d :: ds2) = [] := by simpa using congrArg List.reverse this
      exact absurd this hd1)]
    rw [value_mk_and_ne]
    rw [if_neg (by simp)]
    simp only [if_neg (show ([] : List Char) ≠ ['-'] from by simp)]
    rw [hval]
    ring
  · -- plus sign
    have ht : (w ++ ['+'] ++ ds ++ j).dropWhile isSpaceCh =
        '+' :: (ds ++ j) := by
      rw [hassoc, dropWhile_append_all hw]
      exact dropWhile_cons_false (by decide)
    unfold readL
    rw [ht]
    dsimp only
    rw [show (('+' = '+' : Bool) || ('+' = '-' : Bool)) = true from by decide]
    simp only [if_true]
    rw [hscan]
    rw [if_neg (by
      intro hempty
      have h1 : ds.reverse = [] := List.isEmpty_iff.mp hempty
      have : ds = [] := by simpa using congrArg List.reverse h1
      exact absurd this hd1)]
    rw [show (('+' : Char) = '-' : Bool) = false from by decide]
    rw [value_mk_and_ne]
    rw [if_neg (by simp)]
    simp only [if_neg (show (['+'] : List Char) ≠ ['-'] from by decide)]
    rw [hval]
    ring
  · -- minus sign
    have ht : (w ++ ['-'] ++ ds ++ j).dropWhile isSpaceCh =
        '-' :: (ds ++ j) := by
      rw [hassoc, dropWhile_append_all hw]
      exact dropWhile_cons_false (by decide)
    unfold readL
    rw [ht]
    dsimp only
    rw [show (('-' = '+' : Bool) || ('-' = '-' : Bool)) = true from by decide]
    simp only [if_true]
    rw [hscan]
    rw [if_neg (by
      intro hempty
      have h1 : ds.reverse = [] := List.isEmpty_iff.mp hempty
      have : ds = [] := by simpa using congrArg List.reverse h1
      exact absurd this hd1)]
    rw [value_mk_and_ne, hval]
    simp

/-- Parsing an input with no digit character at all yields canonical zero. -/
theorem readL_nodigit (s : List Char) (h : ∀ c ∈ s, isDigitCh c = false) :
    readL s = ⟨[], false⟩ := by
  unfold readL
  have hsub1 : ∀ c ∈ s.dropWhile isSpaceCh, isDigitCh c = false := by
    intro c hc
    exact h c ((List.dropWhile_sublist _).mem hc)
  have hkey : ∀ (t2 : List Char), (∀ c ∈ t2, isDigitCh c = false) →
      t2.reverse.dropWhile (fun c => !isDigitCh c) = [] := by
    intro t2 h2
    apply dropWhile_all_nil
    intro c hc
    rw [List.mem_reverse] at hc
    simp [h2 c hc]
  cases hT : s.dropWhile isSpaceCh with
  | nil =>
    dsimp only
    rw [hkey [] (by intro c hc; cases hc)]
    rfl
  | cons c rest =>
    dsimp only
    have hcnd : isDigitCh c = false := hsub1 c (by rw [hT]; simp)
    have hrest : ∀ z ∈ rest, isDigitCh z = false := by
      intro z hz
      exact hsub1 z (by rw [hT]; simp [hz])
    by_cases hsgn : ((c = '+' : Bool) || (c = '-' : Bool)) = true
    · rw [if_pos hsgn]
      rw [hkey rest hrest]
      rfl
    · rw [if_neg hsgn]
      rw [hkey (c :: rest) (by
        intro z hz
        rcases List.mem_cons.mp hz with rfl | hz2
        · exact hcnd
        · exact hrest z hz2)]
      rfl

/-- `operator%=` preserves the representation invariant. -/
theorem mod_valid {x b : int2048} (hx : Valid x) (hb : Valid b) :
    Valid (x.mod b) := by
  rcases eq_or_ne b.a [] with hbz | hbne
  · exact (mod_zero_spec hx b hbz).2
  · obtain ⟨hbx, hcx, hzx⟩ := hx
    have hq : Valid (x.div b) := div_valid ⟨hbx, hcx, hzx⟩ hb
    have hp : Valid ((x.div b).mul b) := (mul_spec hq hb).1
    obtain ⟨hbp, hcp, hzp⟩ := hp
    unfold int2048.mod
    dsimp only
    by_cases hsgn : x.neg ≠ ((x.div b).mul b).neg
    · rw [if_pos hsgn]
      exact ⟨addAbsL_bounded hbx hbp, addAbsL_canon hbx hbp hcx hcp,
        fun _ => rfl⟩
    · rw [if_neg hsgn]
      rcases cmpAbsL_spec hbx hbp hcx hcp with ⟨h1, h2⟩ | ⟨h1, h2⟩ | ⟨h1, h2⟩
      · rw [h1]
        rw [if_neg (by decide), if_neg (by decide)]
        have hlen : x.a.length ≤ ((x.div b).mul b).a.length :=
          length_le_of_valNat_le hcx hbp (by omega)
        have hsub := subAbsL_val hbp hbx hlen (by omega)
        have hne : subAbsL ((x.div b).mul b).a x.a ≠ [] := by
          apply ne_nil_of_valNat_pos
          rw [hsub]
          omega
        exact ⟨subAbsL_bounded hbp, subAbsL_canon _ _, fun h => absurd h hne⟩
      · rw [h1, if_pos rfl]
        exact Valid_zero
      · rw [h1]
        rw [if_neg (by decide), if_pos (by decide)]
        exact ⟨subAbsL_bounded hbx, subAbsL_canon _ _, fun _ => rfl⟩

/-! ### Equality of the two output renderings (`print` versus `operator<<`) -/

theorem natChars_single {d : Nat} (h : d < 10) : natChars d = [digitChar d] := by
  interval_cases d <;> decide

theorem printBlock_eq_osBlock {v : Nat} (h : v < BASE) : printBlock v = osBlock v := by
  have hB : BASE = 10000 := rfl
  have h1 : v / 1000 < 10 := by omega
  have h2 : v / 100 % 10 < 10 := Nat.mod_lt _ (by norm_num)
  have h3 : v / 10 % 10 < 10 := Nat.mod_lt _ (by norm_num)
  have h4 : v % 10 < 10 := Nat.mod_lt _ (by norm_num)
  unfold printBlock osBlock
  rw [natChars_single h1, natChars_single h2, natChars_single h3, natChars_single h4,
    Nat.mod_eq_of_lt h1]
  rfl

theorem blocksOut_congr : ∀ {l : List Nat} {f g : Nat → List Char},
    (∀ v ∈ l, f v = g v) → blocksOut f l = blocksOut g l := by
  intro l
  induction l with
  | nil => intro f g _; rfl
  | cons x xs ih =>
    intro f g h
    unfold blocksOut
    simp only [List.foldr_cons]
    rw [h x (List.mem_cons_self x xs)]
    have hxs := ih (fun v hv => h v (List.mem_cons_of_mem x hv))
    unfold blocksOut at hxs
    rw [hxs]

theorem printChars_eq_osChars {x : int2048} (hb : boundedL x.a) :
    printChars x = osChars x := by
  unfold printChars osChars
  by_cases he : x.a.isEmpty
  · rw [if_pos he, if_pos he]
  · rw [if_neg he, if_neg he]
    have hbl : blocksOut printBlock x.a.dropLast.reverse
        = blocksOut osBlock x.a.dropLast.reverse := by
      apply blocksOut_congr
      intro v hv
      apply printBlock_eq_osBlock
      apply hb
      exact List.dropLast_subset _ (List.mem_reverse.mp hv)
    rw [hbl]

/-! ### The native 64-bit constructor -/

theorem fromLL_valid (v : Int) : Valid (fromLL v) := by
  unfold fromLL
  dsimp only
  exact valid_mk_and _ _ (natToDigits_bounded _) (natToDigits_canon _)

theorem fromLL_value {v : Int} (h1 : -(2 ^ 63) ≤ v) (h2 : v < 2 ^ 63) :
    value (fromLL v) = v := by
  unfold fromLL
  dsimp only
  rw [value_mk_and_ne]
  by_cases hv : v < 0
  · rw [if_pos hv, if_pos (decide_eq_true hv)]
    have hmod : (-v) % ((2 : Int) ^ 64) = -v := by
      apply Int.emod_eq_of_lt <;> omega
    rw [hmod, natToDigits_val]
    have ht : (((-v).toNat : Int)) = -v := Int.toNat_of_nonneg (by omega)
    rw [ht]
    ring
  · rw [if_neg hv, if_neg (by simpa using hv)]
    rw [natToDigits_val]
    exact Int.toNat_of_nonneg (by omega)

/-! ### The claims -/

set_option maxRecDepth 8000

/-- Claim C1: the spec asserts that `a % b` always has the sign of `b` or is
zero.  The code diverges: in `operator%=` the statement `this->neg =
this->neg;` (code.cpp line 318) reads the sign flag back only after `*this`
was already overwritten by the magnitude result, so the branch taken for
`a = -2, b = -3` returns `2`, a positive remainder for a negative divisor,
where floor-modulo requires `-2`. -/
theorem claim_C1 :
    value (fromLL (-3)) < 0 ∧ value ((fromLL (-2)).mod (fromLL (-3))) = 2 := by
  decide

/-- Claim C2: the spec asserts the division identity
`(a / b) * b + (a % b) == a` for nonzero `b`.  The sign bug of `operator%=`
breaks it: for `a = -7, b = -3` the code yields `a / b = 2` and `a % b = 1`,
so `(a / b) * b + (a % b) = -5 ≠ -7`. -/
theorem claim_C2 :
    value (((fromLL (-7)).div (fromLL (-3))).mul (fromLL (-3))) +
        value ((fromLL (-7)).mod (fromLL (-3))) ≠ value (fromLL (-7)) := by
  decide

/-- Claim C3 (corrected): the spec says both `a / 0` and `a % 0` silently
yield zero.  Division by zero does return zero, but `a % 0` returns the
absolute value of `a`: the quotient and the product `q * 0` are zero, and the
signed subtraction `a - 0` then loses `a`'s sign through the overwritten-flag
bug, leaving `|a|`. -/
theorem claim_C3 {x : int2048} (b : int2048) (hx : Valid x) (hbz : b.a = []) :
    x.div b = int2048.zero ∧ value (x.mod b) = |value x| :=
  ⟨div_zero_spec x b hbz, (mod_zero_spec hx b hbz).1⟩

theorem claim_C3_counterexample :
    value ((fromLL 5).mod (fromLL 0)) = 5 ∧
      value ((fromLL 5).mod (fromLL 0)) ≠ 0 := by
  decide

theorem claim_C3_witness :
    Valid (fromLL (-9)) ∧ (fromLL 0).a = [] ∧
      ((fromLL (-9)).div (fromLL 0) = int2048.zero ∧
        value ((fromLL (-9)).mod (fromLL 0)) = |value (fromLL (-9))|) :=
  ⟨by decide, by decide, claim_C3 (fromLL 0) (by decide) (by decide)⟩

/-- Claim C4 (corrected): the spec says the parsed magnitude is the decimal
value of the longest trailing run of digit characters.  The code instead
consumes every character from the sign position to the last digit in 4-char
windows, simply skipping embedded non-digits: `read("1a2")` yields `12`, not
`2`.  Amended: after optional whitespace and an optional sign, a nonempty
digit run followed by digit-free text parses to its signed decimal value, and
an input with no digit characters at all yields zero. -/
theorem claim_C4 (w sgn ds j s : List Char)
    (hw : ∀ c ∈ w, isSpaceCh c = true)
    (hs : sgn = [] ∨ sgn = ['+'] ∨ sgn = ['-'])
    (hd1 : ds ≠ []) (hd2 : ∀ c ∈ ds, isDigitCh c = true)
    (hj : ∀ c ∈ j, isDigitCh c = false)
    (hnod : ∀ c ∈ s, isDigitCh c = false) :
    value (readL (w ++ sgn ++ ds ++ j)) =
        (if sgn = ['-'] then -1 else 1) * (decValue ds : Int) ∧
      readL s = ⟨[], false⟩ :=
  ⟨readL_wellformed w sgn ds j hw hs hd1 hd2 hj, readL_nodigit s hnod⟩

theorem claim_C4_counterexample :
    value (readL ['1', 'a', '2']) = 12 ∧ value (readL ['1', 'a', '2']) ≠ 2 := by
  decide

theorem claim_C4_witness :
    (∀ c ∈ [' '], isSpaceCh c = true) ∧
      ((['-'] : List Char) = [] ∨ (['-'] : List Char) = ['+'] ∨
        (['-'] : List Char) = ['-']) ∧
      (['0', '7'] : List Char) ≠ [] ∧
      (∀ c ∈ ['0', '7'], isDigitCh c = true) ∧
      (∀ c ∈ ['x'], isDigitCh c = false) ∧
      (∀ c ∈ ['a', 'b'], isDigitCh c = false) ∧
      (value (readL ([' '] ++ ['-'] ++ ['0', '7'] ++ ['x'])) =
          (if (['-'] : List Char) = ['-'] then -1 else 1) *
            (decValue ['0', '7'] : Int) ∧
        readL ['a', 'b'] = ⟨[], false⟩) :=
  ⟨by decide, by decide, by decide, by decide, by decide, by decide,
    claim_C4 [' '] ['-'] ['0', '7'] ['x'] ['a', 'b'] (by decide) (by decide)
      (by decide) (by decide) (by decide) (by decide)⟩

/-- Claim C5: `operator/=` computes floor division — magnitudes are divided,
and the quotient is decremented past zero (magnitude incremented, marked
negative) exactly when the operand signs differ and the magnitude remainder
is nonzero.  Stated denotationally: the value of `x / b` is the floor
quotient `Int.fdiv` of the values, for every nonzero divisor. -/
theorem claim_C5 {x b : int2048} (hx : Valid x) (hb : Valid b)
    (hbz : value b ≠ 0) :
    value (x.div b) = Int.fdiv (value x) (value b) := by
  have hbne : b.a ≠ [] := by
    intro h
    apply hbz
    unfold value
    rw [h]
    simp [valNat]
  exact (div_spec hx hb hbne).2

theorem claim_C5_witness :
    Valid (fromLL (-5)) ∧ Valid (fromLL 3) ∧ value (fromLL 3) ≠ 0 ∧
      value ((fromLL (-5)).div (fromLL 3)) =
        Int.fdiv (value (fromLL (-5))) (value (fromLL 3)) ∧
      value ((fromLL (-5)).div (fromLL 3)) = -2 :=
  ⟨by decide, by decide, by decide,
    claim_C5 (by decide) (by decide) (by decide), by decide⟩

/-- Claim C6: the magnitude long division `divmod_abs` returns `q, r` with
`u = q * v + r` and `r < v`; a dividend of smaller magnitude returns quotient
zero and the dividend unchanged as remainder; and each binary-searched
quotient digit is the largest `d < RADIX` with
`d * shifted_divisor ≤ running_remainder`. -/
theorem claim_C6 (u v : int2048) (hu : Valid u) (hv : Valid v)
    (hvne : v.a ≠ []) :
    (valNat u.a =
        valNat (divmodAbs u v).1.a * valNat v.a + valNat (divmodAbs u v).2.a ∧
      valNat (divmodAbs u v).2.a < valNat v.a) ∧
    (valNat u.a < valNat v.a →
      (divmodAbs u v).1 = int2048.zero ∧ (divmodAbs u v).2 = u) ∧
    (∀ vsh rem : List Nat, boundedL vsh → canonL vsh = true →
      boundedL rem → canonL rem = true →
      qSearch vsh rem BASE 0 (BASE - 1) 0 < BASE ∧
      qSearch vsh rem BASE 0 (BASE - 1) 0 * valNat vsh ≤ valNat rem ∧
      ∀ d : Nat, d < BASE → d * valNat vsh ≤ valNat rem →
        d ≤ qSearch vsh rem BASE 0 (BASE - 1) 0) := by
  obtain ⟨h1, h2, _, _, _, h6⟩ := divmodAbs_spec u v hu hv hvne
  exact ⟨⟨h1, h2⟩, h6, fun vsh rem hbv hcv hbr hcr =>
    qSearch_spec hbv hcv hbr hcr⟩

theorem claim_C6_witness :
    Valid (fromLL 123456789) ∧ Valid (fromLL 10007) ∧
      (fromLL 10007).a ≠ [] ∧
      ((valNat (fromLL 123456789).a =
          valNat (divmodAbs (fromLL 123456789) (fromLL 10007)).1.a *
              valNat (fromLL 10007).a +
            valNat (divmodAbs (fromLL 123456789) (fromLL 10007)).2.a ∧
        valNat (divmodAbs (fromLL 123456789) (fromLL 10007)).2.a <
          valNat (fromLL 10007).a) ∧
      (valNat (fromLL 123456789).a < valNat (fromLL 10007).a →
        (divmodAbs (fromLL 123456789) (fromLL 10007)).1 = int2048.zero ∧
          (divmodAbs (fromLL 123456789) (fromLL 10007)).2 = fromLL 123456789) ∧
      (∀ vsh rem : List Nat, boundedL vsh → canonL vsh = true →
        boundedL rem → canonL rem = true →
        qSearch vsh rem BASE 0 (BASE - 1) 0 < BASE ∧
        qSearch vsh rem BASE 0 (BASE - 1) 0 * valNat vsh ≤ valNat rem ∧
        ∀ d : Nat, d < BASE → d * valNat vsh ≤ valNat rem →
          d ≤ qSearch vsh rem BASE 0 (BASE - 1) 0)) :=
  ⟨by decide, by decide, by decide,
    claim_C6 (fromLL 123456789) (fromLL 10007) (by decide) (by decide)
      (by decide)⟩

/-- Claim C7: every public operation leaves its result in canonical form —
the most significant stored block, if any, is nonzero, and an empty digit
sequence carries a cleared sign flag.  `Valid` packages exactly these two
invariants together with block boundedness. -/
theorem claim_C7 (v : Int) (s : List Char) (x b : int2048)
    (hx : Valid x) (hb : Valid b) :
    Valid (fromLL v) ∧ Valid (readL s) ∧ Valid (x.add b) ∧
      Valid (x.minus b) ∧ Valid x.negate ∧ Valid (x.mul b) ∧
      Valid (x.div b) ∧ Valid (x.mod b) :=
  ⟨fromLL_valid v, readL_valid s, (add_spec hx hb).1, (minus_spec hx hb).1,
    (negate_spec hx).1, (mul_spec hx hb).1, div_valid hx hb, mod_valid hx hb⟩

theorem claim_C7_witness :
    Valid (fromLL (-12)) ∧ Valid (fromLL 9999) ∧
      (Valid (fromLL 42) ∧ Valid (readL ['4', '2']) ∧
        Valid ((fromLL (-12)).add (fromLL 9999)) ∧
        Valid ((fromLL (-12)).minus (fromLL 9999)) ∧
        Valid (fromLL (-12)).negate ∧
        Valid ((fromLL (-12)).mul (fromLL 9999)) ∧
        Valid ((fromLL (-12)).div (fromLL 9999)) ∧
        Valid ((fromLL (-12)).mod (fromLL 9999))) :=
  ⟨by decide, by decide,
    claim_C7 42 ['4', '2'] (fromLL (-12)) (fromLL 9999) (by decide)
      (by decide)⟩

/-- Claim C8: modulo by zero returns the absolute value of the dividend while
division by zero returns zero — `divmod_abs` short-circuits to `(0, 0)`, so
`a - (a / 0) * 0` reduces to the signed subtraction `a - 0`, whose sign is
then lost by the overwritten-flag assignment, leaving `|a|`. -/
theorem claim_C8 {a b : int2048} (ha : Valid a) (hb : Valid b)
    (hbz : value b = 0) :
    value (a.mod b) = |value a| ∧ a.div b = int2048.zero := by
  have hnil : b.a = [] := by
    apply (valNat_eq_zero_iff_nil hb.2.1).mp
    unfold value at hbz
    split at hbz <;> omega
  exact ⟨(mod_zero_spec ha b hnil).1, div_zero_spec a b hnil⟩

theorem claim_C8_witness :
    Valid (fromLL (-5)) ∧ Valid (fromLL 0) ∧ value (fromLL 0) = 0 ∧
      (value ((fromLL (-5)).mod (fromLL 0)) = |value (fromLL (-5))| ∧
        (fromLL (-5)).div (fromLL 0) = int2048.zero) ∧
      value ((fromLL (-5)).mod (fromLL 0)) = 5 :=
  ⟨by decide, by decide, by decide,
    claim_C8 (by decide) (by decide) (by decide), by decide⟩

/-- Claim C9: `print()` and `operator<<` emit the same character sequence for
every value whose blocks are in range: `0` for zero, a leading `-` when
negative, the top block unpadded, and each further block as exactly four
decimal digits — `print` writes `v/1000, v/100%10, v/10%10, v%10` as ints,
`operator<<` fills a 4-char buffer by repeated `%10`, and for `v < 10000`
these agree digit for digit. -/
theorem claim_C9 {x : int2048} (hx : Valid x) : printChars x = osChars x :=
  printChars_eq_osChars hx.1

theorem claim_C9_witness :
    Valid (fromLL (-1234567)) ∧
      printChars (fromLL (-1234567)) = osChars (fromLL (-1234567)) ∧
      printChars (fromLL (-1234567)) = ['-', '1', '2', '3', '4', '5', '6', '7'] :=
  ⟨by decide, claim_C9 (by decide), by decide⟩

/-- Claim C10: the `long long` constructor is exact on the whole signed
64-bit range, including the minimum: for a negative input the magnitude is
the unsigned wraparound `(-v) mod 2^64`, which equals `-v` for every
`v ≥ -2^63`, so the stored value is `v` and the result is canonical. -/
theorem claim_C10 (v : Int) (h1 : -(2 ^ 63) ≤ v) (h2 : v < 2 ^ 63) :
    value (fromLL v) = v ∧ Valid (fromLL v) :=
  ⟨fromLL_value h1 h2, fromLL_valid v⟩

theorem claim_C10_witness :
    -(2 ^ 63) ≤ (-(2 ^ 63) : Int) ∧ (-(2 ^ 63) : Int) < 2 ^ 63 ∧
      (value (fromLL (-(2 ^ 63))) = -(2 ^ 63) ∧ Valid (fromLL (-(2 ^ 63)))) :=
  ⟨by decide, by decide, claim_C10 (-(2 ^ 63)) (by decide) (by decide)⟩

end Sjtu
